import Mathlib

/-!
# Verification of the Azumi image-hosting core

A shallow embedding of the retrieval reconciler, the size-bounded
re-encoder, tag normalization and filename handling from
`src/controllers/imageController.js` (version 1.8, the current revision in
the repository) and `src/repositories/imageRepository.js`, together with
proofs of the behavioural properties stated about them.

Modelling conventions:
* The SQLite catalog is a `List Image`; a row object carries the columns
  of the `images` table plus the names of its associated tags (the
  `image_tags`/`tags` join).  `DELETE FROM images WHERE id = ?` is
  `deleteImageRec`.
* The filesystem is a predicate `Fs := String → Bool` giving
  `fs.existsSync` on storage paths; `path.resolve` is treated as the
  identity on the abstract path names.
* JavaScript falsiness of strings ( `''` is falsy, `null` is modelled as
  `''` ) and of numeric ids ( `0` is falsy ) is translated explicitly.
* `sharp`'s encoders are an abstract function `enc : Option Nat → Nat → Nat`
  giving the byte length of the encoding produced at a width step and a
  quality / compression-level parameter; buffers are identified with
  their byte lengths, which is all the size properties observe.
* `ORDER BY RANDOM() LIMIT 1` is an oracle `Nat → List Image → Option Image`
  constrained by `OracleSound` (it returns a member of the candidate set,
  and `none` exactly on an empty candidate set).
* Strings are processed at code-point granularity (Lean `Char`), while
  JavaScript regexes work on UTF-16 code units; the two agree on all
  characters below U+10000, and no property proved here distinguishes
  the two on astral characters.
-/

namespace Azumi

/-- A row of the `images` table, as the repository returns it (`SELECT i.*`),
together with the names of the tags associated to it through `image_tags`
(used to interpret the SQL tag-filter joins).  `original_name`, `mime_type`
model nullable text columns, with `""` for NULL/undefined. -/
structure Image where
  id : Nat
  filename : String
  original_name : String
  mime_type : String
  storage_path : String
  access_token : String
  tags : List String
  created_at : String
deriving Repr, DecidableEq

/-- The backing file store: `fs.existsSync` on (resolved) storage paths. -/
abbrev Fs := String → Bool

/-- The existence check made by `GetImages` before serving a candidate:
`const filePath = r.storage_path && path.resolve(r.storage_path);
 if (filePath && fs.existsSync(filePath)) ...`  (imageController.js:414-415,
430-431).  An empty (falsy) storage path counts as missing. -/
def fileOk (fs : Fs) (img : Image) : Bool :=
  img.storage_path != "" && fs img.storage_path

/-- Whether a row matches the SQL tag filter of `ListImagesByTags` /
`RandomImages` (imageRepository.js:51-85): with no tag names every row
matches, otherwise the row must be joined to at least one tag whose name
is in the list (`WHERE t.name IN (...)`). -/
def matchesTags (tagNames : List String) (img : Image) : Bool :=
  tagNames.isEmpty || img.tags.any (fun t => tagNames.contains t)

/-- Insertion into a list kept sorted by descending `id` (model of
`ORDER BY i.id DESC`). -/
def insertDescById (x : Image) : List Image → List Image
  | [] => [x]
  | y :: ys => if y.id ≤ x.id then x :: y :: ys else y :: insertDescById x ys

/-- Sorting by descending `id` (model of `ORDER BY i.id DESC`;
ids are unique in the table, so any stable choice of order is faithful). -/
def sortByIdDesc (l : List Image) : List Image :=
  l.foldr insertDescById []

/-- `ImageRepository.ListImagesByTags` (imageRepository.js:51-65): the
tag-filtered rows of the catalog ordered by identifier descending. -/
def ListImagesByTags (tagNames : List String) (catalog : List Image) : List Image :=
  sortByIdDesc (catalog.filter (matchesTags tagNames))

/-- The two shapes of HTTP response the retrieval endpoints produce:
the image's bytes with its metadata, or a `404` with a plain-text body. -/
inductive Response where
  | file : Image → Response
  | notFound : String → Response
deriving Repr, DecidableEq

/-- `ImageController.SendImageFile` (imageController.js:258-279): serve the
record's backing file; if it is gone, delete the record (cascade deletes the
tag links) and answer 404.  Result: the response together with the ids of
the records deleted as a side effect. -/
def SendImageFile (fs : Fs) (img : Image) : Response × List Nat :=
  if fs img.storage_path then (.file img, [])
  else (.notFound "文件缺失", if img.id ≠ 0 then [img.id] else [])

/-- The `random=false` loop body of `ImageController.GetImages`
(imageController.js:428-439): walk the id-descending candidate rows; serve
the first whose backing file exists; delete (`if (r.id) DeleteImage(r.id)`)
every earlier candidate whose file is missing; 404 when the rows run out.
Result: response and the ids deleted, in deletion order. -/
def getImagesNewestGo (fs : Fs) : List Image → Response × List Nat
  | [] => (.notFound "未找到匹配图片", [])
  | r :: rest =>
    if fileOk fs r then SendImageFile fs r
    else
      let p := getImagesNewestGo fs rest
      (p.1, (if r.id ≠ 0 then [r.id] else []) ++ p.2)

/-- `ImageController.GetImages` with `random=false` (imageController.js:
402-403, 426-440): fetch the tag-filtered, id-descending candidate list
and run the reconciliation walk over it. -/
def getImagesNewest (fs : Fs) (tags : List String) (catalog : List Image) :
    Response × List Nat :=
  getImagesNewestGo fs (ListImagesByTags tags catalog)

/-- `ImageRepository.DeleteImage` (imageRepository.js:45-48):
`DELETE FROM images WHERE id = ?`; the schema cascade-deletes the
`image_tags` links of the deleted row. -/
def deleteImageRec (id : Nat) (catalog : List Image) : List Image :=
  catalog.filter (fun i => i.id != id)

/-- The randomness of `ORDER BY RANDOM() LIMIT 1`, abstracted: at attempt `t`
the database returns one row of the current tag-filtered candidate set. -/
abbrev Oracle := Nat → List Image → Option Image

/-- Soundness of the random-draw abstraction: a draw over an empty candidate
set yields nothing, any drawn row belongs to the candidate set, and a draw
over a non-empty candidate set yields a row (`LIMIT 1` on a non-empty
selection). -/
def OracleSound (o : Oracle) : Prop :=
  ∀ t l, (l = [] → o t l = none)
    ∧ (∀ i, o t l = some i → i ∈ l)
    ∧ (l ≠ [] → (o t l).isSome = true)

/-- `ImageRepository.RandomImages(tagNames, 1)` (imageRepository.js:68-85):
one random row among those matching the tag filter, drawn independently at
each call from the current catalog. -/
def RandomImages (o : Oracle) (t : Nat) (tagNames : List String)
    (catalog : List Image) : Option Image :=
  o t (catalog.filter (matchesTags tagNames))

/-- Everything observable about one run of the `random=true` loop: the
response, the catalog it leaves behind, the ids it deleted (in order), the
candidates the draws produced (in order), and how many draws were made. -/
structure RandomOutcome where
  resp : Response
  catalog : List Image
  deleted : List Nat
  drawn : List Image
  draws : Nat
deriving Repr

/-- `const maxTries = 50` (imageController.js:409). -/
def maxTries : Nat := 50

/-- The `random=true` loop of `ImageController.GetImages`
(imageController.js:405-425): while attempts remain, draw one random
candidate; stop with 404 when a draw yields nothing; serve a drawn
candidate whose file exists; otherwise delete the drawn record
(`if (candidate.id) DeleteImage(candidate.id)`) and draw again.  `fuel` is
the number of attempts remaining (`maxTries - tries`). -/
def getImagesRandomGo (o : Oracle) (fs : Fs) (tags : List String) :
    Nat → Nat → List Image → RandomOutcome
  | 0, _, c => ⟨.notFound "未找到匹配图片", c, [], [], 0⟩
  | fuel+1, t, c =>
    match RandomImages o t tags c with
    | none => ⟨.notFound "未找到匹配图片", c, [], [], 1⟩
    | some cand =>
      if fileOk fs cand then
        ⟨(SendImageFile fs cand).1, c, (SendImageFile fs cand).2, [cand], 1⟩
      else
        let c2 := if cand.id ≠ 0 then deleteImageRec cand.id c else c
        let r := getImagesRandomGo o fs tags fuel (t+1) c2
        ⟨r.resp, r.catalog, (if cand.id ≠ 0 then [cand.id] else []) ++ r.deleted,
         cand :: r.drawn, r.draws + 1⟩

/-- `ImageController.GetImages` with `random=true` (imageController.js:
405-425): run the bounded random-draw loop with `maxTries` attempts. -/
def getImagesRandom (o : Oracle) (fs : Fs) (tags : List String)
    (catalog : List Image) : RandomOutcome :=
  getImagesRandomGo o fs tags maxTries 0 catalog

/-- A concrete sound oracle for witnesses: always draw the first candidate. -/
def headOracle : Oracle := fun _ l => l.head?

/-- ASCII lowercasing, `String.toLowerCase` of JavaScript restricted to the
characters that actually reach it here (format names, file extensions after
sanitization); on those the two agree. -/
def lowerStr (s : String) : String := String.mk (s.data.map Char.toLower)

/-! ### The size-bounded re-encoder (`ImageController.EnsureMaxSize`,
imageController.js:151-252)

`sharp`'s encoders are abstracted by `enc : Option Nat → Nat → Nat`, the
byte length of the buffer produced at a width step (`none` when the
metadata had no width and no resize is applied) and a quality /
compression-level parameter.  A produced buffer is identified with its
byte length: every property stated about the search observes lengths
only. -/

/-- `Number.MAX_SAFE_INTEGER`, the initial value of `bestSize`. -/
def maxSafeInteger : Nat := 2 ^ 53 - 1

/-- The mutable pair `bestBuf` / `bestSize` of the search
(imageController.js:162-163); the buffer is identified with its length. -/
structure SearchState where
  bestBuf : Option Nat
  bestSize : Nat
deriving Repr, DecidableEq

/-- `if (buf.length < bestSize) { bestBuf = buf; bestSize = buf.length; }`
(imageController.js:196 and its copies). -/
def updBest (st : SearchState) (len : Nat) : SearchState :=
  if len < st.bestSize then ⟨some len, len⟩ else st

/-- One width step's inner quality/effort loop (imageController.js:192-198
and the jpeg/webp/tiff copies): encode at each ladder value, keep the best,
and break out of the ladder as soon as a produced encoding fits the budget.
The gif branch (lines 223-229) is the instance with the one-element ladder
`[0]`: it makes a single encode per width and the fit-break after a single
element changes nothing. -/
def runLadder (enc : Option Nat → Nat → Nat) (maxBytes : Nat) (w : Option Nat) :
    List Nat → SearchState → SearchState
  | [], st => st
  | q :: qs, st =>
    let len := enc w q
    let st1 := updBest st len
    if len ≤ maxBytes then st1 else runLadder enc maxBytes w qs st1

/-- `bestBuf && bestBuf.length <= maxBytes` (imageController.js:233), the
outer break condition. -/
def bufFits (st : SearchState) (maxBytes : Nat) : Bool :=
  match st.bestBuf with
  | some b => b ≤ maxBytes
  | none => false

/-- The outer width loop (imageController.js:190-234): after each width
step's ladder, `if (bestBuf && bestBuf.length <= maxBytes) break;`. -/
def runWidths (enc : Option Nat → Nat → Nat) (maxBytes : Nat)
    (ladder : List Nat) : List (Option Nat) → SearchState → SearchState
  | [], st => st
  | w :: ws, st =>
    let st1 := runLadder enc maxBytes w ladder st
    if bufFits st1 maxBytes then st1 else runWidths enc maxBytes ladder ws st1

/-- `Math.round(w * 0.85)` in exact arithmetic (round half up).  The float
computation of the source agrees on all widths relevant here; none of the
proved properties depends on the individual step values. -/
def roundMul85 (w : Nat) : Nat := (17 * w + 10) / 20

/-- The width sequence loop `while (w > 64) { widthSteps.push(Math.round(w));
w = Math.round(w * 0.85); } widthSteps.push(64);` (imageController.js:
176-183).  Written with fuel to stay structurally recursive (hence
kernel-computable); `fuel = w` over-approximates the iteration count, since
`roundMul85 w < w` whenever `w > 64`, so the fuel never runs out. -/
def widthStepsFromF : Nat → Nat → List Nat
  | 0, _ => [64]
  | fuel+1, w => if 64 < w then w :: widthStepsFromF fuel (roundMul85 w) else [64]

def widthStepsFrom (w : Nat) : List Nat := widthStepsFromF w w

/-- The width-step list: a decreasing sequence when the decoded metadata has
a (truthy) width, a single no-resize step otherwise
(imageController.js:176-183). -/
def widthSteps : Option Nat → List (Option Nat)
  | some w => if 0 < w then (widthStepsFrom w).map some else [none]
  | none => [none]

/-- `const qualitySeq = [85, 75, 65, 55, 45, 35, 25, 20];`
(imageController.js:186). -/
def qualitySeq : List Nat := [85, 75, 65, 55, 45, 35, 25, 20]

/-- `const pngLevels = [6, 7, 8, 9];` (imageController.js:188). -/
def pngLevels : List Nat := [6, 7, 8, 9]

/-- The quality/effort ladder the search iterates for each format branch of
the width loop (imageController.js:190-232): compression levels for png,
the quality sequence for jpeg/webp/tiff, a single parameterless encode for
gif, and no encode at all for unsupported formats (the final else branch
does nothing). -/
def formatLadder (format : String) : List Nat :=
  if format = "png" then pngLevels
  else if format = "jpeg" || format = "webp" || format = "tiff" then qualitySeq
  else if format = "gif" then [0]
  else []

/-- The extension-to-format fallback map (imageController.js:167). -/
def extFormat (ext : String) : Option String :=
  if ext = ".jpg" || ext = ".jpeg" then some "jpeg"
  else if ext = ".png" then some "png"
  else if ext = ".webp" then some "webp"
  else if ext = ".gif" then some "gif"
  else if ext = ".tif" || ext = ".tiff" then some "tiff"
  else if ext = ".bmp" then some "bmp"
  else none

/-- `let format = (meta.format || '').toLowerCase(); if (!format) format =
map[ext] || 'jpeg';` (imageController.js:166-168).  `ext` is
`path.extname(filePath)`, lowercased here as in line 165. -/
def computedFormat (metaFormat ext : String) : String :=
  let f := lowerStr metaFormat
  if f ≠ "" then f else (extFormat (lowerStr ext)).getD "jpeg"

/-- The `{ changed, newSize }` result object of `EnsureMaxSize`. -/
structure EnsureOutcome where
  changed : Bool
  newSize : Nat
deriving Repr, DecidableEq

/-- `ImageController.EnsureMaxSize` (imageController.js:151-252) on its
non-throwing path.  Inputs: the file's current byte size, the decoded
metadata's format string (`""` when absent) and width, the file extension,
the abstract encoder and the byte budget.  Output: the reported
`{ changed, newSize }` and the final on-disk byte size (the original size
when nothing is written, the written buffer's length otherwise —
`fs.writeFileSync(filePath, bestBuf)` overwrites the same path, so the
extension and the encoding format never change). -/
def EnsureMaxSize (origSize : Nat) (metaFormat ext : String) (mw : Option Nat)
    (enc : Option Nat → Nat → Nat) (maxBytes : Nat) : EnsureOutcome × Nat :=
  if origSize ≤ maxBytes then (⟨false, origSize⟩, origSize)
  else
    let format := computedFormat metaFormat ext
    if format = "bmp" then (⟨false, origSize⟩, origSize)
    else
      let st := runWidths enc maxBytes (formatLadder format) (widthSteps mw)
        ⟨none, maxSafeInteger⟩
      match st.bestBuf with
      | none => (⟨false, origSize⟩, origSize)
      | some b => (⟨true, b⟩, b)

/-! ### Mojibake repair and tag normalization
(`ImageController.FixUtf8Mojibake` / `ScoreString` / `NormalizeTagsUtf8`,
imageController.js:96-140)

`Buffer.from(s, 'latin1')` takes the string's UTF-16 code units masked to
their low byte; `.toString('utf8')` decodes those bytes as UTF-8 with
U+FFFD replacement for invalid sequences (the WHATWG decoding Node uses).
Both are modelled executably below. -/

/-- The UTF-16 code units of a character (surrogate pair above U+FFFF). -/
def utf16Units (c : Char) : List Nat :=
  if c.toNat < 0x10000 then [c.toNat]
  else [0xD800 + (c.toNat - 0x10000) / 0x400, 0xDC00 + (c.toNat - 0x10000) % 0x400]

/-- `Buffer.from(s, 'latin1')`: each UTF-16 code unit masked to its low
byte. -/
def latin1Bytes (s : String) : List Nat :=
  (s.data.flatMap utf16Units).map (fun u => u % 256)

/-- U+FFFD. -/
def replacementChar : Char := '�'

/-- A UTF-8 continuation byte. -/
def isCont (b : Nat) : Bool := 0x80 ≤ b && b ≤ 0xBF

/-- WHATWG UTF-8 decoding with U+FFFD replacement (what
`buffer.toString('utf8')` performs), written with byte-count fuel so that it
is structurally recursive and kernel-computable; each step consumes at least
one byte, so `fuel = length` never runs out. -/
def utf8DecodeF : Nat → List Nat → List Char
  | 0, _ => []
  | _, [] => []
  | fuel+1, b :: rest =>
    if b < 0x80 then Char.ofNat b :: utf8DecodeF fuel rest
    else if 0xC2 ≤ b && b ≤ 0xDF then
      match rest with
      | [] => [replacementChar]
      | b1 :: rest1 =>
        if isCont b1 then
          Char.ofNat ((b - 0xC0) * 0x40 + (b1 - 0x80)) :: utf8DecodeF fuel rest1
        else replacementChar :: utf8DecodeF fuel rest
    else if 0xE0 ≤ b && b ≤ 0xEF then
      match rest with
      | [] => [replacementChar]
      | b1 :: rest1 =>
        if (if b = 0xE0 then 0xA0 else 0x80) ≤ b1
            && b1 ≤ (if b = 0xED then 0x9F else 0xBF) then
          match rest1 with
          | [] => [replacementChar]
          | b2 :: rest2 =>
            if isCont b2 then
              Char.ofNat ((b - 0xE0) * 0x1000 + (b1 - 0x80) * 0x40 + (b2 - 0x80))
                :: utf8DecodeF fuel rest2
            else replacementChar :: utf8DecodeF fuel rest1
        else replacementChar :: utf8DecodeF fuel rest
    else if 0xF0 ≤ b && b ≤ 0xF4 then
      match rest with
      | [] => [replacementChar]
      | b1 :: rest1 =>
        if (if b = 0xF0 then 0x90 else 0x80) ≤ b1
            && b1 ≤ (if b = 0xF4 then 0x8F else 0xBF) then
          match rest1 with
          | [] => [replacementChar]
          | b2 :: rest2 =>
            if isCont b2 then
              match rest2 with
              | [] => [replacementChar]
              | b3 :: rest3 =>
                if isCont b3 then
                  Char.ofNat (((b - 0xF0) * 0x40 + (b1 - 0x80)) * 0x1000
                      + (b2 - 0x80) * 0x40 + (b3 - 0x80))
                    :: utf8DecodeF fuel rest3
                else replacementChar :: utf8DecodeF fuel rest2
            else replacementChar :: utf8DecodeF fuel rest1
        else replacementChar :: utf8DecodeF fuel rest
    else replacementChar :: utf8DecodeF fuel rest

/-- UTF-8 decoding of a byte list with replacement. -/
def utf8Decode (bytes : List Nat) : List Char :=
  utf8DecodeF bytes.length bytes

/-- `Buffer.from(s, 'latin1').toString('utf8')` (imageController.js:99). -/
def reinterpretLatin1Utf8 (s : String) : String :=
  String.mk (utf8Decode (latin1Bytes s))

/-- Characters matched by `/[一-龥]/` (imageController.js:111). -/
def isCJK (c : Char) : Bool := 0x4E00 ≤ c.toNat && c.toNat ≤ 0x9FA5

/-- Characters matched by `/[ÃÂæçè]/` (imageController.js:112). -/
def isArtifact (c : Char) : Bool :=
  c = 'Ã' || c = 'Â' || c = 'æ' || c = 'ç' || c = 'è'

/-- Number of CJK-range characters of a string. -/
def cjkCount (s : String) : Nat := (s.data.filter isCJK).length

/-- Number of known mis-decode artifact characters of a string. -/
def artifactCount (s : String) : Nat := (s.data.filter isArtifact).length

/-- `ImageController.ScoreString` (imageController.js:109-114):
`(cjk * 2) - mojibake` as a JavaScript number. -/
def ScoreString (s : String) : Int :=
  (cjkCount s : Int) * 2 - (artifactCount s : Int)

/-- Modelled from the spec's words, for the refinement comparison of claim
C6 only: "count of target-script characters minus count of known artifact
characters". -/
def scoreSpecWords (s : String) : Int :=
  (cjkCount s : Int) - (artifactCount s : Int)

/-- `ImageController.FixUtf8Mojibake` (imageController.js:96-106): keep the
latin1→utf8 reinterpretation exactly when it scores strictly higher (the
`try`/`catch` is dead on this pure path: none of the operations throws). -/
def FixUtf8Mojibake (s : String) : String :=
  let trial := reinterpretLatin1Utf8 s
  if ScoreString s < ScoreString trial then trial else s

/-- The whitespace set of JavaScript `String.prototype.trim`
(WhiteSpace ∪ LineTerminator). -/
def isJsWhitespace (c : Char) : Bool :=
  let n := c.toNat
  n = 0x9 || n = 0xA || n = 0xB || n = 0xC || n = 0xD || n = 0x20 || n = 0xA0
    || n = 0x1680 || (0x2000 ≤ n && n ≤ 0x200A) || n = 0x2028 || n = 0x2029
    || n = 0x202F || n = 0x205F || n = 0x3000 || n = 0xFEFF

/-- JavaScript `s.trim()`. -/
def jsTrim (s : String) : String :=
  String.mk (((s.data.dropWhile isJsWhitespace).reverse.dropWhile
    isJsWhitespace).reverse)

/-- `s.split(/[\,，]/)` on the character list: split at every comma or
fullwidth comma, keeping empty segments (they are filtered right after). -/
def splitTagChars : List Char → List (List Char)
  | [] => [[]]
  | c :: cs =>
    if c = ',' || c = '，' then [] :: splitTagChars cs
    else
      match splitTagChars cs with
      | seg :: rest => (c :: seg) :: rest
      | [] => [[c]]

/-- `s.split(/[\,，]/)` (imageController.js:126). -/
def splitTagSegs (s : String) : List String :=
  (splitTagChars s.data).map String.mk

/-- First-seen deduplication with a `seen` accumulator
(imageController.js:134-138). -/
def dedupFirstGo (seen : List String) : List String → List String
  | [] => []
  | x :: xs =>
    if seen.contains x then dedupFirstGo seen xs
    else x :: dedupFirstGo (x :: seen) xs

/-- The per-element segment pipeline of `NormalizeTagsUtf8`
(imageController.js:124-132): split on commas/fullwidth commas, trim,
drop empties, repair mojibake, NFC-normalize (`nfc` abstracts
`String.prototype.normalize('NFC')`, an external Unicode table lookup),
drop results that became empty. -/
def processTag (nfc : String → String) (t : String) : List String :=
  (((splitTagSegs t).map jsTrim).filter (fun x => x ≠ "")).filterMap
    (fun seg =>
      let seg2 := nfc (FixUtf8Mojibake seg)
      if seg2.length > 0 then some seg2 else none)

/-- `ImageController.NormalizeTagsUtf8` (imageController.js:121-140) on an
array input: normalize every element and deduplicate first-seen. -/
def NormalizeTagsUtf8 (nfc : String → String) (rawTags : List String) :
    List String :=
  dedupFirstGo [] (rawTags.flatMap (processTag nfc))

/-! ### Filename and MIME handling (`SanitizeName` / `ResolveMimeType` /
`BuildDownloadName`, imageController.js:35-88) and the metadata list
endpoint (`ListImages`, imageController.js:366-382).

JavaScript regexes replace per UTF-16 code unit; the model replaces per
code point (an astral character becomes one `_` instead of two), which no
property proved here distinguishes. -/

/-- JavaScript `a || b` for strings: `""` is the only falsy string. -/
def jsOr (a b : String) : String := if a ≠ "" then a else b

/-- The character class kept by `SanitizeName`'s replacement
(`/[^A-Za-z0-9._\-一-龥]/g`, imageController.js:61). -/
def isSanAllowed (c : Char) : Bool :=
  ('A' ≤ c && c ≤ 'Z') || ('a' ≤ c && c ≤ 'z') || ('0' ≤ c && c ≤ '9')
  || c = '.' || c = '_' || c = '-' || (0x4E00 ≤ c.toNat && c.toNat ≤ 0x9FA5)

/-- `ImageController.SanitizeName` (imageController.js:56-62): cut at the
first `?`, then at the first `#`, then replace every character outside the
safe class with `_`. -/
def SanitizeName (s : String) : String :=
  let cut := (s.data.takeWhile (fun c => c ≠ '?')).takeWhile (fun c => c ≠ '#')
  String.mk (cut.map (fun c => if isSanAllowed c then c else '_'))

/-- `path.extname` for the separator-free names reaching it here: the
substring from the last dot; empty when there is no dot, when the only
remaining dot is the name's first character, or when the name is exactly
`".."` (Node's special cases). -/
def pathExtname (s : String) : String :=
  let r := s.data.reverse
  match r.dropWhile (fun c => c ≠ '.') with
  | [] => ""
  | [_] => ""
  | _ :: _ :: _ =>
    if s.data = ['.', '.'] then ""
    else String.mk ('.' :: (r.takeWhile (fun c => c ≠ '.')).reverse)

/-- `path.basename` for the paths reaching it here: the part after the last
`/` (storage paths of files carry no trailing separator). -/
def pathBasename (s : String) : String :=
  String.mk ((s.data.reverse.takeWhile (fun c => c ≠ '/')).reverse)

/-- `String(img.mime_type).split(';')[0]` (imageController.js:38). -/
def splitSemicolonHead (s : String) : String :=
  String.mk (s.data.takeWhile (fun c => c ≠ ';'))

/-- The extension switch of `ResolveMimeType` (imageController.js:44-52). -/
def mimeFromExt (ext : String) : String :=
  if ext = ".png" then "image/png"
  else if ext = ".jpg" || ext = ".jpeg" then "image/jpeg"
  else if ext = ".gif" then "image/gif"
  else if ext = ".webp" then "image/webp"
  else if ext = ".bmp" then "image/bmp"
  else "application/octet-stream"

/-- `ImageController.ResolveMimeType` (imageController.js:35-53): prefer the
record's `mime_type` (first `;`-segment, trimmed, when non-empty), else map
the sanitized display name's lowercased extension. -/
def ResolveMimeType (img : Image) : String :=
  let fallback := mimeFromExt (lowerStr (pathExtname
    (SanitizeName (jsOr img.original_name img.filename))))
  if img.mime_type ≠ "" then
    let main := jsTrim (splitSemicolonHead img.mime_type)
    if main ≠ "" then main else fallback
  else fallback

/-- The recognized download extensions (imageController.js:68). -/
def recognizedExts : List String :=
  [".png", ".jpg", ".jpeg", ".gif", ".webp", ".bmp"]

/-- The MIME-to-extension map of `BuildDownloadName`
(imageController.js:71-77). -/
def extForMime (mime : String) : Option String :=
  if mime = "image/png" then some ".png"
  else if mime = "image/jpeg" then some ".jpg"
  else if mime = "image/gif" then some ".gif"
  else if mime = "image/webp" then some ".webp"
  else if mime = "image/bmp" then some ".bmp"
  else none

/-- `raw.endsWith(ext)` / suffix testing on strings. -/
def jsEndsWith (s suff : String) : Bool := suff.data.isSuffixOf s.data

/-- The name `BuildDownloadName` sanitizes (imageController.js:66). -/
def rawDownloadBase (img : Image) : String :=
  jsOr img.original_name (jsOr img.filename
    (jsOr (pathBasename img.storage_path) "image"))

/-- `ImageController.BuildDownloadName` (imageController.js:65-88): the
download name (sanitized, with an extension synthesized from the resolved
MIME type when the name lacks a recognized one and the map knows the type)
and its ASCII fallback (every character outside printable ASCII replaced by
`_`).  The RFC 5987 `filename*` percent-encoding of line 86 is not modelled;
no property here concerns it. -/
def BuildDownloadName (img : Image) : String × String :=
  let raw := SanitizeName (rawDownloadBase img)
  let hasExt := recognizedExts.contains (lowerStr (pathExtname raw))
  let name :=
    if hasExt then raw
    else
      match extForMime (ResolveMimeType img) with
      | some e => if jsEndsWith raw e then raw else raw ++ e
      | none => raw
  (name, String.mk (name.data.map
    (fun c => if 0x20 ≤ c.toNat && c.toNat ≤ 0x7E then c else '_')))

/-- A record whose display name has an unrecognized extension and whose
MIME type resolves outside the download map (counterexample input for C8). -/
def noExtImg : Image := ⟨1, "", "file.txt", "", "", "tok", [], ""⟩

/-- A record whose display name lacks an extension but whose MIME type is
`image/png` (witness input for the amended C8). -/
def pngImg : Image := ⟨2, "stored", "photo", "image/png", "p.png", "tok2", [], ""⟩

/-- One element of the JSON array `ListImages` returns
(imageController.js:374-380). -/
structure ListedImage where
  id : Nat
  filename : String
  tags : String
  url : String
  created_at : String
deriving Repr, DecidableEq

/-- `ImageController.ListImages` (imageController.js:366-382): the
tag-filtered rows whose backing file exists, mapped to their metadata; the
`tags` field is `r.tags || ''` and the row objects of `SELECT i.*` carry no
`tags` column, so it is always `""`.  The second component is the catalog
after the call: the handler performs no delete or update, so it is returned
unchanged by construction. -/
def ListImages (fs : Fs) (tags : List String) (catalog : List Image) :
    List ListedImage × List Image :=
  (((ListImagesByTags tags catalog).filter (fun r => fileOk fs r)).map
    (fun r => ⟨r.id, r.filename, "", "/api/images/" ++ r.access_token,
      r.created_at⟩),
   catalog)

/-! ### Analysis vocabulary for the re-encoder search -/

/-- The prefix of a list a break-on-first-hit loop actually visits: every
element up to and including the first one satisfying `fit`, or the whole
list when none does. -/
def searchVisited (fit : α → Bool) : List α → List α
  | [] => []
  | x :: xs => if fit x then [x] else x :: searchVisited fit xs

/-- The full two-dimensional search space in iteration order: width steps
crossed with the quality/effort ladder. -/
def combosOf (steps : List (Option Nat)) (ladder : List Nat) :
    List (Option Nat × Nat) :=
  steps.flatMap (fun w => ladder.map (fun q => (w, q)))

/-- Byte length of the encoding produced at a search point. -/
def encAt (enc : Option Nat → Nat → Nat) (p : Option Nat × Nat) : Nat :=
  enc p.1 p.2

/-- Whether the encoding produced at a search point fits the budget. -/
def comboFits (enc : Option Nat → Nat → Nat) (maxBytes : Nat)
    (p : Option Nat × Nat) : Bool :=
  encAt enc p ≤ maxBytes

/-- The search space of an `EnsureMaxSize` run. -/
def searchCombos (metaFormat ext : String) (mw : Option Nat) :
    List (Option Nat × Nat) :=
  combosOf (widthSteps mw) (formatLadder (computedFormat metaFormat ext))

/-- Folding the best-encoding update over a list of search points. -/
def foldBest (enc : Option Nat → Nat → Nat) (st : SearchState)
    (l : List (Option Nat × Nat)) : SearchState :=
  l.foldl (fun st p => updBest st (encAt enc p)) st

/-- Coherence of a search state: untouched, or holding the recorded best. -/
def Coherent (st : SearchState) : Prop :=
  (st.bestBuf = none ∧ st.bestSize = maxSafeInteger) ∨ st.bestBuf = some st.bestSize

/-- Sample catalog for concrete witnesses: two records, tagged `x`. -/
def sampleCatalog : List Image :=
  [⟨1, "a.png", "", "", "a.png", "tok1", ["x"], "t1"⟩,
   ⟨2, "b.png", "", "", "b.png", "tok2", ["x"], "t2"⟩]

/-- Sample filesystem: only `a.png` exists (the newer record's file is gone). -/
def sampleFs : Fs := fun p => p == "a.png"

end Azumi

namespace Azumi

/-! ## Theorems: sorting infrastructure and claim C1 -/

theorem insertDescById_perm (x : Image) (l : List Image) :
    (insertDescById x l).Perm (x :: l) := by
  induction l with
  | nil => simp [insertDescById]
  | cons y ys ih =>
    by_cases h : y.id ≤ x.id
    · simp [insertDescById, h]
    · simp only [insertDescById, if_neg h]
      exact (ih.cons y).trans (List.Perm.swap x y ys)

theorem sortByIdDesc_perm (l : List Image) : (sortByIdDesc l).Perm l := by
  induction l with
  | nil => simp [sortByIdDesc]
  | cons x xs ih =>
    simpa [sortByIdDesc] using (insertDescById_perm x (sortByIdDesc xs)).trans (ih.cons x)

theorem insertDescById_pairwise (x : Image) (l : List Image)
    (h : l.Pairwise (fun a b => b.id ≤ a.id)) :
    (insertDescById x l).Pairwise (fun a b => b.id ≤ a.id) := by
  induction l with
  | nil => simp [insertDescById]
  | cons y ys ih =>
    rcases List.pairwise_cons.1 h with ⟨hy, hys⟩
    by_cases hle : y.id ≤ x.id
    · rw [insertDescById, if_pos hle]
      refine List.pairwise_cons.2 ⟨?_, h⟩
      intro z hz
      rcases List.mem_cons.1 hz with rfl | hz
      · exact hle
      · exact (hy z hz).trans hle
    · rw [insertDescById, if_neg hle]
      refine List.pairwise_cons.2 ⟨?_, ih hys⟩
      intro z hz
      have hz2 : z ∈ x :: ys := (insertDescById_perm x ys).mem_iff.1 hz
      rcases List.mem_cons.1 hz2 with rfl | hz3
      · exact Nat.le_of_lt (Nat.lt_of_not_le hle)
      · exact hy z hz3

theorem sortByIdDesc_pairwise (l : List Image) :
    (sortByIdDesc l).Pairwise (fun a b => b.id ≤ a.id) := by
  induction l with
  | nil => simp [sortByIdDesc]
  | cons x xs ih => exact insertDescById_pairwise x _ ih

/-- Characterization of the newest-mode reconciliation walk: the response is
determined by the first candidate whose file exists, and the deleted ids are
exactly the ids of the candidates visited before it whose file is missing. -/
theorem getImagesNewestGo_spec (fs : Fs) (l : List Image)
    (hid : ∀ i ∈ l, 0 < i.id) :
    getImagesNewestGo fs l =
      ((match l.find? (fileOk fs) with
        | some r => Response.file r
        | none => Response.notFound "未找到匹配图片"),
       (l.takeWhile (fun r => !fileOk fs r)).map Image.id) := by
  induction l with
  | nil => simp [getImagesNewestGo]
  | cons r rest ih =>
    by_cases h : fileOk fs r
    · have hfs : fs r.storage_path = true := by
        have := h
        simp [fileOk, Bool.and_eq_true] at this
        exact this.2
      simp [getImagesNewestGo, h, List.find?_cons, SendImageFile, hfs]
    · have hr : (0 : Nat) < r.id := hid r (List.mem_cons_self r rest)
      have ihr := ih (fun i hi => hid i (List.mem_cons_of_mem r hi))
      simp [getImagesNewestGo, h, List.find?_cons, ihr, Nat.pos_iff_ne_zero.1 hr]

/-- **C1.** For every catalog state and tag filter, a newest-mode resolve
(`GetImages` with `random=false`) iterates the tag-filtered candidate list in
identifier-descending order (the candidates are a permutation of the
tag-filtered catalog, pairwise sorted by descending id) and returns the first
candidate whose backing file exists; every candidate visited before it whose
file is missing has its catalog record deleted as a side effect; if the list
is exhausted without any candidate whose file exists, the result is the
not-found response. -/
theorem getImages_newest_resolves (fs : Fs) (tags : List String)
    (catalog : List Image) (hid : ∀ i ∈ catalog, 0 < i.id) :
    (ListImagesByTags tags catalog).Pairwise (fun a b => b.id ≤ a.id)
  ∧ (ListImagesByTags tags catalog).Perm (catalog.filter (matchesTags tags))
  ∧ (getImagesNewest fs tags catalog).1 =
      (match (ListImagesByTags tags catalog).find? (fileOk fs) with
       | some r => Response.file r
       | none => Response.notFound "未找到匹配图片")
  ∧ (getImagesNewest fs tags catalog).2 =
      ((ListImagesByTags tags catalog).takeWhile (fun r => !fileOk fs r)).map
        Image.id := by
  have hsub : ∀ i ∈ ListImagesByTags tags catalog, 0 < i.id := by
    intro i hi
    have hm : i ∈ catalog.filter (matchesTags tags) :=
      (sortByIdDesc_perm (catalog.filter (matchesTags tags))).subset hi
    exact hid i (List.mem_of_mem_filter hm)
  have hgo := getImagesNewestGo_spec fs (ListImagesByTags tags catalog) hsub
  refine ⟨sortByIdDesc_pairwise _, sortByIdDesc_perm _, ?_, ?_⟩ <;>
    simp [getImagesNewest, hgo]

/-- Concrete witness for C1: in `sampleCatalog` the newest record (id 2) has a
missing file, so the resolve serves record 1 and deletes record 2. -/
theorem getImages_newest_resolves_witness :
    (∀ i ∈ sampleCatalog, 0 < i.id)
  ∧ ((ListImagesByTags [] sampleCatalog).Pairwise (fun a b => b.id ≤ a.id)
  ∧ (ListImagesByTags [] sampleCatalog).Perm
      (sampleCatalog.filter (matchesTags []))
  ∧ (getImagesNewest sampleFs [] sampleCatalog).1 =
      (match (ListImagesByTags [] sampleCatalog).find? (fileOk sampleFs) with
       | some r => Response.file r
       | none => Response.notFound "未找到匹配图片")
  ∧ (getImagesNewest sampleFs [] sampleCatalog).2 =
      ((ListImagesByTags [] sampleCatalog).takeWhile
        (fun r => !fileOk sampleFs r)).map Image.id) :=
  ⟨by decide, getImages_newest_resolves sampleFs [] sampleCatalog (by decide)⟩

/-! ## Theorems: claim C2 (bounded random-draw loop) -/

theorem headOracle_sound : OracleSound headOracle := by
  intro t l
  cases l with
  | nil => exact ⟨fun _ => rfl, fun i hi => by simp [headOracle] at hi,
      fun h => absurd rfl h⟩
  | cons a as =>
    refine ⟨fun h => by simp at h, fun i hi => ?_, fun _ => by simp [headOracle]⟩
    have : a = i := by simpa [headOracle] using hi
    simp [← this]

theorem notMem_cons_decomp (x a : Nat) (l : List Nat) :
    (decide (x ∉ a :: l)) = (decide (x ∉ l) && (x != a)) := by
  by_cases h1 : x = a <;> by_cases h2 : x ∈ l <;> simp [h1, h2]

/-- Master invariant of the random-draw loop: the number of draws is bounded
by the fuel, the final catalog is the initial one minus exactly the deleted
ids, the deleted ids are exactly the drawn candidates whose file was missing,
and a served image is a drawn candidate whose file exists, preceded only by
draws whose files were missing. -/
theorem getImagesRandomGo_spec (o : Oracle) (fs : Fs) (tags : List String)
    (ho : OracleSound o) :
    ∀ fuel t c, (∀ i ∈ c, 0 < i.id) →
      (getImagesRandomGo o fs tags fuel t c).draws ≤ fuel
    ∧ (getImagesRandomGo o fs tags fuel t c).catalog =
        c.filter (fun i => decide (i.id ∉ (getImagesRandomGo o fs tags fuel t c).deleted))
    ∧ (getImagesRandomGo o fs tags fuel t c).deleted =
        ((getImagesRandomGo o fs tags fuel t c).drawn.filter
          (fun i => !fileOk fs i)).map Image.id
    ∧ (∀ i, (getImagesRandomGo o fs tags fuel t c).resp = .file i →
        fileOk fs i = true ∧ i ∈ c
        ∧ ∃ pre, (getImagesRandomGo o fs tags fuel t c).drawn = pre ++ [i]
          ∧ ∀ x ∈ pre, fileOk fs x = false) := by
  intro fuel
  induction fuel with
  | zero =>
    intro t c _
    refine ⟨Nat.le_refl 0, ?_, rfl, fun i hi => by simp [getImagesRandomGo] at hi⟩
    simp [getImagesRandomGo]
  | succ fuel ih =>
    intro t c hid
    rcases hdraw : RandomImages o t tags c with _ | cand
    · refine ⟨by simp [getImagesRandomGo, hdraw], ?_, ?_, fun i hi => ?_⟩
      · simp [getImagesRandomGo, hdraw]
      · simp [getImagesRandomGo, hdraw]
      · simp [getImagesRandomGo, hdraw] at hi
    · have hcand : cand ∈ c.filter (matchesTags tags) :=
        (ho t (c.filter (matchesTags tags))).2.1 cand hdraw
      have hcandc : cand ∈ c := List.mem_of_mem_filter hcand
      have hcid : (0 : Nat) < cand.id := hid cand hcandc
      have hcne : cand.id ≠ 0 := Nat.pos_iff_ne_zero.1 hcid
      by_cases hok : fileOk fs cand
      · have hfs : fs cand.storage_path = true := by
          have := hok
          simp [fileOk, Bool.and_eq_true] at this
          exact this.2
        refine ⟨?_, ?_, ?_, fun i hi => ?_⟩
        · simp [getImagesRandomGo, hdraw, hok]
        · simp [getImagesRandomGo, hdraw, hok, SendImageFile, hfs]
        · simp [getImagesRandomGo, hdraw, hok, SendImageFile, hfs]
        · have : Response.file cand = Response.file i := by
            simpa [getImagesRandomGo, hdraw, hok, SendImageFile, hfs] using hi
          obtain rfl : cand = i := by injection this
          exact ⟨hok, hcandc, [], by simp [getImagesRandomGo, hdraw, hok],
            fun x hx => by simp at hx⟩
      · have hid2 : ∀ i ∈ deleteImageRec cand.id c, 0 < i.id :=
          fun i hi => hid i (List.mem_of_mem_filter hi)
        obtain ⟨ha, hb, hc, hd⟩ := ih (t+1) (deleteImageRec cand.id c) hid2
        have hun : getImagesRandomGo o fs tags (fuel+1) t c =
            ⟨(getImagesRandomGo o fs tags fuel (t+1) (deleteImageRec cand.id c)).resp,
             (getImagesRandomGo o fs tags fuel (t+1) (deleteImageRec cand.id c)).catalog,
             cand.id :: (getImagesRandomGo o fs tags fuel (t+1) (deleteImageRec cand.id c)).deleted,
             cand :: (getImagesRandomGo o fs tags fuel (t+1) (deleteImageRec cand.id c)).drawn,
             (getImagesRandomGo o fs tags fuel (t+1) (deleteImageRec cand.id c)).draws + 1⟩ := by
          simp [getImagesRandomGo, hdraw, hok, hcne]
        refine ⟨?_, ?_, ?_, fun i hi => ?_⟩
        · rw [hun]
          exact Nat.succ_le_succ ha
        · rw [hun]
          show _ = c.filter _
          calc (getImagesRandomGo o fs tags fuel (t+1) (deleteImageRec cand.id c)).catalog
              = (c.filter (fun i => i.id != cand.id)).filter
                  (fun i => decide (i.id ∉ (getImagesRandomGo o fs tags fuel (t+1)
                    (deleteImageRec cand.id c)).deleted)) := hb
            _ = c.filter (fun i => decide (i.id ∉ cand.id ::
                  (getImagesRandomGo o fs tags fuel (t+1) (deleteImageRec cand.id c)).deleted)) := by
                rw [List.filter_filter]
                exact List.filter_congr (fun i _ => (notMem_cons_decomp i.id cand.id _).symm)
        · rw [hun]
          simp only [List.filter_cons, Bool.not_eq_true']
          rw [hc]
          simp [hok]
        · rw [hun] at hi
          obtain ⟨h1, h2, pre, h3, h4⟩ := hd i hi
          refine ⟨h1, List.mem_of_mem_filter h2, cand :: pre, ?_, fun x hx => ?_⟩
          · rw [hun]
            simp [h3]
          · rcases List.mem_cons.1 hx with rfl | hx2
            · simpa using hok
            · exact h4 x hx2

/-- **C2.** A random-mode resolve (`GetImages` with `random=true`) performs at
most 50 independent single-candidate random draws; it returns the drawn
candidate as soon as one's backing file exists (all earlier draws had missing
files), returns not-found immediately (after a single draw, catalog
untouched) when a draw yields no candidate, and every drawn candidate whose
file is missing is deleted from the catalog before the next draw (the
continuation runs on the catalog with the record removed), so the loop always
terminates within the fixed cap. -/
theorem getImages_random_spec (o : Oracle) (fs : Fs) (tags : List String)
    (catalog : List Image) (ho : OracleSound o)
    (hid : ∀ i ∈ catalog, 0 < i.id) :
    (getImagesRandom o fs tags catalog).draws ≤ maxTries
  ∧ (getImagesRandom o fs tags catalog).catalog =
      catalog.filter (fun i => decide (i.id ∉ (getImagesRandom o fs tags catalog).deleted))
  ∧ (getImagesRandom o fs tags catalog).deleted =
      ((getImagesRandom o fs tags catalog).drawn.filter
        (fun i => !fileOk fs i)).map Image.id
  ∧ (∀ i, (getImagesRandom o fs tags catalog).resp = .file i →
      fileOk fs i = true ∧ i ∈ catalog
      ∧ ∃ pre, (getImagesRandom o fs tags catalog).drawn = pre ++ [i]
        ∧ ∀ x ∈ pre, fileOk fs x = false)
  ∧ (catalog.filter (matchesTags tags) = [] →
      getImagesRandom o fs tags catalog =
        ⟨.notFound "未找到匹配图片", catalog, [], [], 1⟩)
  ∧ (∀ fuel t c cand, RandomImages o t tags c = some cand →
      fileOk fs cand = false → cand.id ≠ 0 →
      getImagesRandomGo o fs tags (fuel+1) t c =
        ⟨(getImagesRandomGo o fs tags fuel (t+1) (deleteImageRec cand.id c)).resp,
         (getImagesRandomGo o fs tags fuel (t+1) (deleteImageRec cand.id c)).catalog,
         cand.id :: (getImagesRandomGo o fs tags fuel (t+1) (deleteImageRec cand.id c)).deleted,
         cand :: (getImagesRandomGo o fs tags fuel (t+1) (deleteImageRec cand.id c)).drawn,
         (getImagesRandomGo o fs tags fuel (t+1) (deleteImageRec cand.id c)).draws + 1⟩) := by
  obtain ⟨ha, hb, hc, hd⟩ :=
    getImagesRandomGo_spec o fs tags ho maxTries 0 catalog hid
  refine ⟨ha, hb, hc, hd, fun hempty => ?_, fun fuel t c cand h1 h2 h3 => ?_⟩
  · have hnone : RandomImages o 0 tags catalog = none := by
      unfold RandomImages
      rw [hempty]
      exact (ho 0 []).1 rfl
    show getImagesRandomGo o fs tags maxTries 0 catalog = _
    rw [show maxTries = 49 + 1 from rfl]
    simp [getImagesRandomGo, hnone]
  · simp [getImagesRandomGo, h1, h2, h3]

/-- Concrete witness for C2: with the head-drawing oracle over
`sampleCatalog` (whose newest-listed record has a live file `a.png`), the
hypotheses of the random-mode theorem hold and its conclusion is obtained by
applying it. -/
theorem getImages_random_spec_witness :
    (OracleSound headOracle ∧ (∀ i ∈ sampleCatalog, 0 < i.id))
  ∧ ((getImagesRandom headOracle sampleFs [] sampleCatalog).draws ≤ maxTries
  ∧ (getImagesRandom headOracle sampleFs [] sampleCatalog).catalog =
      sampleCatalog.filter (fun i =>
        decide (i.id ∉ (getImagesRandom headOracle sampleFs [] sampleCatalog).deleted))
  ∧ (getImagesRandom headOracle sampleFs [] sampleCatalog).deleted =
      ((getImagesRandom headOracle sampleFs [] sampleCatalog).drawn.filter
        (fun i => !fileOk sampleFs i)).map Image.id
  ∧ (∀ i, (getImagesRandom headOracle sampleFs [] sampleCatalog).resp = .file i →
      fileOk sampleFs i = true ∧ i ∈ sampleCatalog
      ∧ ∃ pre, (getImagesRandom headOracle sampleFs [] sampleCatalog).drawn = pre ++ [i]
        ∧ ∀ x ∈ pre, fileOk sampleFs x = false)
  ∧ (sampleCatalog.filter (matchesTags []) = [] →
      getImagesRandom headOracle sampleFs [] sampleCatalog =
        ⟨.notFound "未找到匹配图片", sampleCatalog, [], [], 1⟩)
  ∧ (∀ fuel t c cand, RandomImages headOracle t [] c = some cand →
      fileOk sampleFs cand = false → cand.id ≠ 0 →
      getImagesRandomGo headOracle sampleFs [] (fuel+1) t c =
        ⟨(getImagesRandomGo headOracle sampleFs [] fuel (t+1) (deleteImageRec cand.id c)).resp,
         (getImagesRandomGo headOracle sampleFs [] fuel (t+1) (deleteImageRec cand.id c)).catalog,
         cand.id :: (getImagesRandomGo headOracle sampleFs [] fuel (t+1) (deleteImageRec cand.id c)).deleted,
         cand :: (getImagesRandomGo headOracle sampleFs [] fuel (t+1) (deleteImageRec cand.id c)).drawn,
         (getImagesRandomGo headOracle sampleFs [] fuel (t+1) (deleteImageRec cand.id c)).draws + 1⟩)) :=
  ⟨⟨headOracle_sound, by decide⟩,
   getImages_random_spec headOracle sampleFs [] sampleCatalog headOracle_sound (by decide)⟩

/-! ## Theorems: the re-encoder search (claims C3, C4, C5) -/

theorem updBest_bestSize (st : SearchState) (len : Nat) :
    (updBest st len).bestSize = Nat.min st.bestSize len := by
  unfold updBest
  rcases Nat.lt_or_ge len st.bestSize with h | h
  · rw [if_pos h]
    exact (Nat.min_eq_right (Nat.le_of_lt h)).symm
  · rw [if_neg (Nat.not_lt.2 h)]
    exact (Nat.min_eq_left h).symm

theorem updBest_coherent (st : SearchState) (len : Nat) (h : Coherent st) :
    Coherent (updBest st len) := by
  unfold updBest
  by_cases hl : len < st.bestSize
  · rw [if_pos hl]
    exact Or.inr rfl
  · rw [if_neg hl]
    exact h

theorem updBest_some (st : SearchState) (len : Nat)
    (h : st.bestBuf = some st.bestSize) :
    (updBest st len).bestBuf = some (updBest st len).bestSize := by
  unfold updBest
  by_cases hl : len < st.bestSize
  · rw [if_pos hl]
  · rw [if_neg hl]
    exact h

theorem foldBest_cons (enc : Option Nat → Nat → Nat) (st : SearchState)
    (p : Option Nat × Nat) (l : List (Option Nat × Nat)) :
    foldBest enc st (p :: l) = foldBest enc (updBest st (encAt enc p)) l := rfl

theorem foldBest_append (enc : Option Nat → Nat → Nat) (st : SearchState)
    (a b : List (Option Nat × Nat)) :
    foldBest enc st (a ++ b) = foldBest enc (foldBest enc st a) b := by
  simp [foldBest, List.foldl_append]

theorem foldBest_bestSize (enc : Option Nat → Nat → Nat)
    (l : List (Option Nat × Nat)) : ∀ st : SearchState,
    (foldBest enc st l).bestSize =
      (l.map (encAt enc)).foldl Nat.min st.bestSize := by
  induction l with
  | nil => intro st; rfl
  | cons p ps ih =>
    intro st
    rw [foldBest_cons, ih]
    simp [updBest_bestSize]

theorem foldBest_coherent (enc : Option Nat → Nat → Nat)
    (l : List (Option Nat × Nat)) : ∀ st : SearchState,
    Coherent st → Coherent (foldBest enc st l) := by
  induction l with
  | nil => intro st h; exact h
  | cons p ps ih =>
    intro st h
    rw [foldBest_cons]
    exact ih _ (updBest_coherent _ _ h)

theorem foldBest_some (enc : Option Nat → Nat → Nat)
    (l : List (Option Nat × Nat))
    (henc : ∀ p ∈ l, encAt enc p < maxSafeInteger) :
    ∀ st : SearchState, Coherent st →
    (st.bestBuf = some st.bestSize ∨ l ≠ []) →
    (foldBest enc st l).bestBuf = some (foldBest enc st l).bestSize := by
  induction l with
  | nil =>
    intro st _ hne
    rcases hne with h | h
    · exact h
    · exact absurd rfl h
  | cons p ps ih =>
    intro st hco _
    rw [foldBest_cons]
    have hup : (updBest st (encAt enc p)).bestBuf =
        some (updBest st (encAt enc p)).bestSize := by
      rcases hco with ⟨h1, h2⟩ | h1
      · unfold updBest
        rw [h2, if_pos (henc p (List.mem_cons_self p ps))]
      · exact updBest_some st _ h1
    exact ih (fun q hq => henc q (List.mem_cons_of_mem _ hq)) _
      (updBest_coherent _ _ hco) (Or.inl hup)

theorem foldl_min_le_init (xs : List Nat) : ∀ init : Nat,
    xs.foldl Nat.min init ≤ init := by
  induction xs with
  | nil => intro init; exact Nat.le_refl _
  | cons x rest ih =>
    intro init
    exact (ih (Nat.min init x)).trans (Nat.min_le_left _ _)

theorem foldl_min_le_mem (xs : List Nat) : ∀ (init x : Nat), x ∈ xs →
    xs.foldl Nat.min init ≤ x := by
  induction xs with
  | nil => intro init x hx; cases hx
  | cons y rest ih =>
    intro init x hx
    rcases List.mem_cons.1 hx with rfl | hx2
    · exact (foldl_min_le_init rest _).trans (Nat.min_le_right _ _)
    · exact ih _ x hx2

theorem foldl_min_gt (xs : List Nat) : ∀ (init B : Nat), B < init →
    (∀ x ∈ xs, B < x) → B < xs.foldl Nat.min init := by
  induction xs with
  | nil => intro init B h _; exact h
  | cons x rest ih =>
    intro init B h hall
    refine ih _ B ?_ (fun y hy => hall y (List.mem_cons_of_mem _ hy))
    exact Nat.lt_min.2 ⟨h, hall x (List.mem_cons_self x rest)⟩

theorem foldl_min_attained (xs : List Nat) : ∀ init : Nat,
    xs.foldl Nat.min init = init ∨ ∃ x ∈ xs, xs.foldl Nat.min init = x := by
  induction xs with
  | nil => intro init; exact Or.inl rfl
  | cons x rest ih =>
    intro init
    rcases ih (Nat.min init x) with h | ⟨y, hy, h⟩
    · rcases Nat.lt_or_ge x init with hlt | hle
      · exact Or.inr ⟨x, List.mem_cons_self x rest,
          by rw [List.foldl_cons, h]; exact Nat.min_eq_right (Nat.le_of_lt hlt)⟩
      · exact Or.inl (by rw [List.foldl_cons, h]; exact Nat.min_eq_left hle)
    · exact Or.inr ⟨y, List.mem_cons_of_mem _ hy, h⟩

theorem searchVisited_subset (fit : α → Bool) (l : List α) :
    ∀ p ∈ searchVisited fit l, p ∈ l := by
  induction l with
  | nil => intro p hp; cases hp
  | cons x xs ih =>
    intro p hp
    by_cases h : fit x
    · rw [searchVisited, if_pos h] at hp
      rcases List.mem_cons.1 hp with rfl | hp2
      · exact List.mem_cons_self p xs
      · cases hp2
    · rw [searchVisited, if_neg h] at hp
      rcases List.mem_cons.1 hp with rfl | hp2
      · exact List.mem_cons_self p xs
      · exact List.mem_cons_of_mem _ (ih p hp2)

theorem searchVisited_of_no_fit (fit : α → Bool) (l : List α)
    (h : l.any fit = false) : searchVisited fit l = l := by
  induction l with
  | nil => rfl
  | cons x xs ih =>
    simp only [List.any_cons, Bool.or_eq_false_iff] at h
    simp [searchVisited, h.1, ih h.2]

theorem searchVisited_decomp (fit : α → Bool) (l : List α)
    (h : l.any fit = true) :
    ∃ pre p post, l = pre ++ p :: post ∧ (∀ x ∈ pre, fit x = false)
      ∧ fit p = true ∧ searchVisited fit l = pre ++ [p] := by
  induction l with
  | nil => simp at h
  | cons x xs ih =>
    by_cases hx : fit x
    · exact ⟨[], x, xs, by simp, fun y hy => absurd hy (List.not_mem_nil y),
        hx, by simp [searchVisited, hx]⟩
    · have hxs : xs.any fit = true := by
        simp only [List.any_cons] at h
        simpa [hx] using h
      obtain ⟨pre, p, post, h1, h2, h3, h4⟩ := ih hxs
      refine ⟨x :: pre, p, post, by simp [h1], fun y hy => ?_, h3,
        by simp [searchVisited, hx, h4]⟩
      rcases List.mem_cons.1 hy with rfl | hy2
      · simpa using hx
      · exact h2 y hy2

theorem searchVisited_append_no_fit (fit : α → Bool) (a b : List α)
    (h : a.any fit = false) :
    searchVisited fit (a ++ b) = a ++ searchVisited fit b := by
  induction a with
  | nil => rfl
  | cons x xs ih =>
    simp only [List.any_cons, Bool.or_eq_false_iff] at h
    simp [searchVisited, h.1, ih h.2]

theorem searchVisited_append_fit (fit : α → Bool) (a b : List α)
    (h : a.any fit = true) :
    searchVisited fit (a ++ b) = searchVisited fit a := by
  induction a with
  | nil => simp at h
  | cons x xs ih =>
    by_cases hx : fit x
    · simp [searchVisited, hx]
    · have hxs : xs.any fit = true := by
        simp only [List.any_cons] at h
        simpa [hx] using h
      simp [searchVisited, hx, ih hxs]

theorem searchVisited_ne_nil (fit : α → Bool) (l : List α) (h : l ≠ []) :
    searchVisited fit l ≠ [] := by
  cases l with
  | nil => exact absurd rfl h
  | cons x xs => by_cases hx : fit x <;> simp [searchVisited, hx]

theorem combosOf_cons (w : Option Nat) (ws : List (Option Nat))
    (ladder : List Nat) :
    combosOf (w :: ws) ladder =
      (ladder.map (fun q => (w, q))) ++ combosOf ws ladder := by
  simp [combosOf]

theorem runLadder_eq_foldBest (enc : Option Nat → Nat → Nat) (maxBytes : Nat)
    (w : Option Nat) : ∀ (qs : List Nat) (st : SearchState),
    runLadder enc maxBytes w qs st =
      foldBest enc st (searchVisited (comboFits enc maxBytes)
        (qs.map (fun q => (w, q)))) := by
  intro qs
  induction qs with
  | nil => intro st; rfl
  | cons q qs ih =>
    intro st
    by_cases hfit : enc w q ≤ maxBytes
    · simp [runLadder, hfit, searchVisited, comboFits, encAt, foldBest]
    · have hfit2 : comboFits enc maxBytes (w, q) = false := by
        simp [comboFits, encAt, hfit]
      simp only [runLadder, if_neg hfit, List.map_cons, searchVisited, hfit2,
        Bool.false_eq_true, if_false, foldBest_cons]
      exact ih _

theorem runWidths_eq_foldBest (enc : Option Nat → Nat → Nat) (maxBytes : Nat)
    (ladder : List Nat) (henc : ∀ w q, enc w q < maxSafeInteger) :
    ∀ (ws : List (Option Nat)) (st : SearchState), Coherent st →
      maxBytes < st.bestSize →
    runWidths enc maxBytes ladder ws st =
      foldBest enc st (searchVisited (comboFits enc maxBytes)
        (combosOf ws ladder)) := by
  intro ws
  induction ws with
  | nil => intro st _ _; rfl
  | cons w ws ih =>
    intro st hco hgt
    have hL1 := runLadder_eq_foldBest enc maxBytes w ladder st
    have hencl : ∀ p ∈ searchVisited (comboFits enc maxBytes)
        (ladder.map (fun q => (w, q))), encAt enc p < maxSafeInteger :=
      fun p _ => henc p.1 p.2
    by_cases hany : (ladder.map (fun q => (w, q))).any (comboFits enc maxBytes)
    · obtain ⟨pre, p, post, hdec, hpre, hfit, hvis⟩ :=
        searchVisited_decomp (comboFits enc maxBytes) _ hany
      have hst1 : runLadder enc maxBytes w ladder st =
          foldBest enc st (pre ++ [p]) := by rw [hL1, hvis]
      have hsize : (foldBest enc st (pre ++ [p])).bestSize ≤ maxBytes := by
        rw [foldBest_bestSize]
        have hmem : encAt enc p ∈ (pre ++ [p]).map (encAt enc) := by simp
        exact (foldl_min_le_mem _ _ _ hmem).trans
          (by simpa [comboFits] using hfit)
      have hsome : (foldBest enc st (pre ++ [p])).bestBuf =
          some (foldBest enc st (pre ++ [p])).bestSize := by
        refine foldBest_some enc (pre ++ [p]) (fun q _ => henc q.1 q.2) st hco
          (Or.inr (by simp))
      have hbf : bufFits (foldBest enc st (pre ++ [p])) maxBytes = true := by
        unfold bufFits
        rw [hsome]
        simpa using hsize
      rw [runWidths]
      simp only [hst1, hbf, if_true]
      rw [combosOf_cons, searchVisited_append_fit _ _ _ hany, hvis]
    · have hvisw : searchVisited (comboFits enc maxBytes)
          (ladder.map (fun q => (w, q))) = ladder.map (fun q => (w, q)) :=
        searchVisited_of_no_fit _ _ (by simpa using hany)
      have hallgt : ∀ x ∈ (ladder.map (fun q => (w, q))).map (encAt enc),
          maxBytes < x := by
        intro x hx
        rcases List.mem_map.1 hx with ⟨p, hp, rfl⟩
        have hnf : ¬ comboFits enc maxBytes p = true :=
          List.any_eq_false.1 (by simpa using hany) p hp
        simpa [comboFits, encAt, Nat.not_le] using hnf
      have hst1 : runLadder enc maxBytes w ladder st =
          foldBest enc st (ladder.map (fun q => (w, q))) := by rw [hL1, hvisw]
      have hgt1 : maxBytes <
          (foldBest enc st (ladder.map (fun q => (w, q)))).bestSize := by
        rw [foldBest_bestSize]
        exact foldl_min_gt _ _ _ hgt hallgt
      have hco1 : Coherent (foldBest enc st (ladder.map (fun q => (w, q)))) :=
        foldBest_coherent enc _ st hco
      have hbf : bufFits (foldBest enc st (ladder.map (fun q => (w, q))))
          maxBytes = false := by
        unfold bufFits
        rcases hco1 with ⟨h1, _⟩ | h1
        · rw [h1]
        · rw [h1]
          simpa using Nat.not_le.2 hgt1
      rw [runWidths]
      simp only [hst1, hbf, Bool.false_eq_true, if_false]
      rw [ih _ hco1 hgt1, combosOf_cons,
        searchVisited_append_no_fit _ _ _ (by simpa using hany), foldBest_append]

theorem widthStepsFromF_ne_nil : ∀ fuel w, widthStepsFromF fuel w ≠ [] := by
  intro fuel
  induction fuel with
  | zero => intro w; simp [widthStepsFromF]
  | succ f ih => intro w; by_cases h : 64 < w <;> simp [widthStepsFromF, h]

theorem widthSteps_ne_nil (mw : Option Nat) : widthSteps mw ≠ [] := by
  cases mw with
  | none => simp [widthSteps]
  | some w =>
    by_cases h : 0 < w
    · simp only [widthSteps, if_pos h, ne_eq, List.map_eq_nil_iff]
      exact widthStepsFromF_ne_nil w w
    · simp [widthSteps, h]

theorem combosOf_ne_nil (steps : List (Option Nat)) (ladder : List Nat)
    (h1 : steps ≠ []) (h2 : ladder ≠ []) : combosOf steps ladder ≠ [] := by
  cases steps with
  | nil => exact absurd rfl h1
  | cons w ws =>
    rw [combosOf_cons]
    intro h
    rcases List.append_eq_nil.1 h with ⟨ha, _⟩
    exact h2 (List.map_eq_nil_iff.1 ha)

theorem formatLadder_ne_bmp (f : String)
    (h : formatLadder f ≠ []) : f ≠ "bmp" := by
  intro hf
  rw [hf] at h
  exact h rfl

theorem combosOf_nil_ladder (steps : List (Option Nat)) :
    combosOf steps [] = [] := by
  simp [combosOf]

/-- Core characterization of the re-encoder on an oversized re-encodable
input: the report is `{ changed: true, newSize: m }`, the file is
overwritten by a buffer of length `m`, and `m` is the minimum length over
the encodings the search actually produced (the visited prefix of the
search space). -/
theorem ensureMaxSize_core (origSize : Nat) (metaFormat ext : String)
    (mw : Option Nat) (enc : Option Nat → Nat → Nat) (maxBytes : Nat)
    (hover : maxBytes < origSize)
    (hfmt : formatLadder (computedFormat metaFormat ext) ≠ [])
    (henc : ∀ w q, enc w q < maxSafeInteger)
    (hmax : maxBytes < maxSafeInteger) :
    ∃ m, EnsureMaxSize origSize metaFormat ext mw enc maxBytes = (⟨true, m⟩, m)
      ∧ m = ((searchVisited (comboFits enc maxBytes)
          (searchCombos metaFormat ext mw)).map (encAt enc)).foldl Nat.min
          maxSafeInteger := by
  have hnotle : ¬ origSize ≤ maxBytes := Nat.not_le.2 hover
  have hbmp := formatLadder_ne_bmp _ hfmt
  have hco : Coherent (⟨none, maxSafeInteger⟩ : SearchState) := Or.inl ⟨rfl, rfl⟩
  have hrw := runWidths_eq_foldBest enc maxBytes
    (formatLadder (computedFormat metaFormat ext)) henc (widthSteps mw)
    ⟨none, maxSafeInteger⟩ hco hmax
  have hcne : searchCombos metaFormat ext mw ≠ [] :=
    combosOf_ne_nil _ _ (widthSteps_ne_nil mw) hfmt
  have hvne : searchVisited (comboFits enc maxBytes)
      (searchCombos metaFormat ext mw) ≠ [] := searchVisited_ne_nil _ _ hcne
  have hsome := foldBest_some enc
    (searchVisited (comboFits enc maxBytes) (searchCombos metaFormat ext mw))
    (fun p _ => henc p.1 p.2) ⟨none, maxSafeInteger⟩ hco (Or.inr hvne)
  refine ⟨(foldBest enc ⟨none, maxSafeInteger⟩
    (searchVisited (comboFits enc maxBytes)
      (searchCombos metaFormat ext mw))).bestSize, ?_, ?_⟩
  · unfold EnsureMaxSize
    rw [if_neg hnotle, if_neg hbmp]
    show (match (runWidths enc maxBytes
        (formatLadder (computedFormat metaFormat ext)) (widthSteps mw)
        ⟨none, maxSafeInteger⟩).bestBuf with
      | none => ((⟨false, origSize⟩ : EnsureOutcome), origSize)
      | some b => ((⟨true, b⟩ : EnsureOutcome), b)) = _
    rw [hrw]
    show (match (foldBest enc ⟨none, maxSafeInteger⟩
        (searchVisited (comboFits enc maxBytes)
          (searchCombos metaFormat ext mw))).bestBuf with
      | none => ((⟨false, origSize⟩ : EnsureOutcome), origSize)
      | some b => ((⟨true, b⟩ : EnsureOutcome), b)) = _
    rw [hsome]
  · rw [foldBest_bestSize]

/-- **C3.** For every oversized re-encodable input, `EnsureMaxSize` reports
`changed` with a `newSize` equal to the final on-disk size `m`, where `m` is
the smallest encoding the search produced (a lower bound of, and attained
among, the visited encodings); whenever some width/quality combination of
the search space fits the budget the final size is ≤ `maxBytes` and the
visited part of the search is exactly the prefix up to and including the
first fitting combination (the search stops as soon as any produced encoding
fits); when no combination fits, the whole space is visited, so the file is
overwritten with the smallest encoding produced anywhere in the search and
`newSize` equals its byte length. -/
theorem ensureMaxSize_budget_search (origSize : Nat) (metaFormat ext : String)
    (mw : Option Nat) (enc : Option Nat → Nat → Nat) (maxBytes : Nat)
    (hover : maxBytes < origSize)
    (hfmt : formatLadder (computedFormat metaFormat ext) ≠ [])
    (henc : ∀ w q, enc w q < maxSafeInteger)
    (hmax : maxBytes < maxSafeInteger) :
    ∃ m, EnsureMaxSize origSize metaFormat ext mw enc maxBytes = (⟨true, m⟩, m)
    ∧ (∀ p ∈ searchVisited (comboFits enc maxBytes)
        (searchCombos metaFormat ext mw), m ≤ encAt enc p)
    ∧ (∃ p ∈ searchVisited (comboFits enc maxBytes)
        (searchCombos metaFormat ext mw), m = encAt enc p)
    ∧ ((searchCombos metaFormat ext mw).any (comboFits enc maxBytes) = true →
        m ≤ maxBytes
        ∧ ∃ pre p post, searchCombos metaFormat ext mw = pre ++ p :: post
            ∧ (∀ x ∈ pre, comboFits enc maxBytes x = false)
            ∧ comboFits enc maxBytes p = true
            ∧ searchVisited (comboFits enc maxBytes)
                (searchCombos metaFormat ext mw) = pre ++ [p])
    ∧ ((searchCombos metaFormat ext mw).any (comboFits enc maxBytes) = false →
        searchVisited (comboFits enc maxBytes) (searchCombos metaFormat ext mw)
          = searchCombos metaFormat ext mw) := by
  obtain ⟨m, hm, hchar⟩ :=
    ensureMaxSize_core origSize metaFormat ext mw enc maxBytes hover hfmt henc hmax
  have hlow : ∀ p ∈ searchVisited (comboFits enc maxBytes)
      (searchCombos metaFormat ext mw), m ≤ encAt enc p := by
    intro p hp
    rw [hchar]
    exact foldl_min_le_mem _ _ _ (List.mem_map_of_mem _ hp)
  have hcne : searchCombos metaFormat ext mw ≠ [] :=
    combosOf_ne_nil _ _ (widthSteps_ne_nil mw) hfmt
  have hvne : searchVisited (comboFits enc maxBytes)
      (searchCombos metaFormat ext mw) ≠ [] := searchVisited_ne_nil _ _ hcne
  refine ⟨m, hm, hlow, ?_, ?_, fun hno => searchVisited_of_no_fit _ _ hno⟩
  · rcases foldl_min_attained ((searchVisited (comboFits enc maxBytes)
        (searchCombos metaFormat ext mw)).map (encAt enc)) maxSafeInteger with
      h | ⟨x, hx, h⟩
    · exfalso
      obtain ⟨p, hp⟩ := List.exists_mem_of_ne_nil _ hvne
      have h1 := foldl_min_le_mem
        ((searchVisited (comboFits enc maxBytes)
          (searchCombos metaFormat ext mw)).map (encAt enc))
        maxSafeInteger (encAt enc p) (List.mem_map_of_mem _ hp)
      have h2 : encAt enc p < maxSafeInteger := henc p.1 p.2
      rw [h] at h1
      omega
    · rcases List.mem_map.1 hx with ⟨p, hp, rfl⟩
      exact ⟨p, hp, by rw [hchar, h]⟩
  · intro hany
    obtain ⟨pre, p, post, h1, h2, h3, h4⟩ := searchVisited_decomp _ _ hany
    have hp : p ∈ searchVisited (comboFits enc maxBytes)
        (searchCombos metaFormat ext mw) := by
      rw [h4]
      simp
    exact ⟨(hlow p hp).trans (by simpa [comboFits] using h3),
      pre, p, post, h1, h2, h3, h4⟩

/-- Concrete witness for C3: a 300000-byte jpeg with a 262144-byte budget
and an encoder always producing 100000 bytes; the first produced encoding
already fits. -/
theorem ensureMaxSize_budget_search_witness :
    ∃ m, EnsureMaxSize 300000 "jpeg" ".jpg" (some 100)
        (fun _ _ => 100000) 262144 = (⟨true, m⟩, m)
    ∧ (∀ p ∈ searchVisited (comboFits (fun _ _ => 100000) 262144)
        (searchCombos "jpeg" ".jpg" (some 100)), m ≤ encAt (fun _ _ => 100000) p)
    ∧ (∃ p ∈ searchVisited (comboFits (fun _ _ => 100000) 262144)
        (searchCombos "jpeg" ".jpg" (some 100)), m = encAt (fun _ _ => 100000) p)
    ∧ ((searchCombos "jpeg" ".jpg" (some 100)).any
          (comboFits (fun _ _ => 100000) 262144) = true →
        m ≤ 262144
        ∧ ∃ pre p post, searchCombos "jpeg" ".jpg" (some 100) = pre ++ p :: post
            ∧ (∀ x ∈ pre, comboFits (fun _ _ => 100000) 262144 x = false)
            ∧ comboFits (fun _ _ => 100000) 262144 p = true
            ∧ searchVisited (comboFits (fun _ _ => 100000) 262144)
                (searchCombos "jpeg" ".jpg" (some 100)) = pre ++ [p])
    ∧ ((searchCombos "jpeg" ".jpg" (some 100)).any
          (comboFits (fun _ _ => 100000) 262144) = false →
        searchVisited (comboFits (fun _ _ => 100000) 262144)
          (searchCombos "jpeg" ".jpg" (some 100))
          = searchCombos "jpeg" ".jpg" (some 100)) :=
  ensureMaxSize_budget_search 300000 "jpeg" ".jpg" (some 100)
    (fun _ _ => 100000) 262144 (by decide) (by decide)
    (fun _ _ => by show (100000 : Nat) < maxSafeInteger; decide) (by decide)

/-- Counterexample to C4 as stated: an oversized (500-byte, 300-byte budget)
64-pixel-wide jpeg whose re-encodings all come out at 1000 bytes.  No
combination fits the budget, so the code overwrites the file with the
smallest produced encoding — and the on-disk size grows from 500 to 1000
bytes (`fs.writeFileSync(filePath, bestBuf)` at imageController.js:241 is
not guarded by a comparison with the original size). -/
theorem ensureMaxSize_can_grow :
    500 < (EnsureMaxSize 500 "jpeg" ".jpg" (some 64)
      (fun _ _ => 1000) 300).2 := by decide

/-- **C4** (amended).  For every oversized input, `EnsureMaxSize` never
changes the file's path, format or extension (the only write is an in-place
overwrite of the same path in the same format); a format with no re-encode
path is left fully untouched; the size never increases when some
width/quality combination of the search space fits the budget (the final
size is then ≤ `maxBytes` < original size); when no combination fits, the
final size is the minimum over the produced encodings, which can exceed the
original size (see the counterexample). -/
theorem ensureMaxSize_no_growth (origSize : Nat) (metaFormat ext : String)
    (mw : Option Nat) (enc : Option Nat → Nat → Nat) (maxBytes : Nat)
    (hover : maxBytes < origSize)
    (henc : ∀ w q, enc w q < maxSafeInteger)
    (hmax : maxBytes < maxSafeInteger) :
    (formatLadder (computedFormat metaFormat ext) = [] →
      EnsureMaxSize origSize metaFormat ext mw enc maxBytes =
        (⟨false, origSize⟩, origSize))
  ∧ ((searchCombos metaFormat ext mw).any (comboFits enc maxBytes) = true →
      (EnsureMaxSize origSize metaFormat ext mw enc maxBytes).2 ≤ maxBytes
      ∧ (EnsureMaxSize origSize metaFormat ext mw enc maxBytes).2 < origSize)
  ∧ (formatLadder (computedFormat metaFormat ext) ≠ [] →
      (searchCombos metaFormat ext mw).any (comboFits enc maxBytes) = false →
      (∀ p ∈ searchCombos metaFormat ext mw,
        (EnsureMaxSize origSize metaFormat ext mw enc maxBytes).2 ≤ encAt enc p)
      ∧ ∃ p ∈ searchCombos metaFormat ext mw,
        (EnsureMaxSize origSize metaFormat ext mw enc maxBytes).2
          = encAt enc p) := by
  have hnotle : ¬ origSize ≤ maxBytes := Nat.not_le.2 hover
  refine ⟨fun hlad => ?_, fun hany => ?_, fun hfmt hno => ?_⟩
  · by_cases hb : computedFormat metaFormat ext = "bmp"
    · unfold EnsureMaxSize
      rw [if_neg hnotle, if_pos hb]
    · have hco : Coherent (⟨none, maxSafeInteger⟩ : SearchState) :=
        Or.inl ⟨rfl, rfl⟩
      have hrw := runWidths_eq_foldBest enc maxBytes
        (formatLadder (computedFormat metaFormat ext)) henc (widthSteps mw)
        ⟨none, maxSafeInteger⟩ hco hmax
      unfold EnsureMaxSize
      rw [if_neg hnotle, if_neg hb]
      show (match (runWidths enc maxBytes
          (formatLadder (computedFormat metaFormat ext)) (widthSteps mw)
          ⟨none, maxSafeInteger⟩).bestBuf with
        | none => ((⟨false, origSize⟩ : EnsureOutcome), origSize)
        | some b => ((⟨true, b⟩ : EnsureOutcome), b)) = _
      rw [hrw, hlad, combosOf_nil_ladder]
      rfl
  · have hfmt : formatLadder (computedFormat metaFormat ext) ≠ [] := by
      intro hlad
      rw [show searchCombos metaFormat ext mw
          = combosOf (widthSteps mw) (formatLadder (computedFormat metaFormat ext))
          from rfl, hlad, combosOf_nil_ladder] at hany
      simp at hany
    obtain ⟨m, hm, hchar⟩ :=
      ensureMaxSize_core origSize metaFormat ext mw enc maxBytes hover hfmt henc hmax
    obtain ⟨pre, p, post, h1, h2, h3, h4⟩ := searchVisited_decomp _ _ hany
    have hp : p ∈ searchVisited (comboFits enc maxBytes)
        (searchCombos metaFormat ext mw) := by
      rw [h4]
      simp
    have hle : m ≤ maxBytes := by
      rw [hchar]
      exact (foldl_min_le_mem _ _ _ (List.mem_map_of_mem _ hp)).trans
        (by simpa [comboFits] using h3)
    rw [hm]
    exact ⟨hle, Nat.lt_of_le_of_lt hle hover⟩
  · obtain ⟨m, hm, hchar⟩ :=
      ensureMaxSize_core origSize metaFormat ext mw enc maxBytes hover hfmt henc hmax
    have hvis := searchVisited_of_no_fit
      (comboFits enc maxBytes) (searchCombos metaFormat ext mw) hno
    have hcne : searchCombos metaFormat ext mw ≠ [] :=
      combosOf_ne_nil _ _ (widthSteps_ne_nil mw) hfmt
    rw [hm]
    constructor
    · intro p hp
      rw [hchar, hvis]
      exact foldl_min_le_mem _ _ _ (List.mem_map_of_mem _ hp)
    · rcases foldl_min_attained ((searchCombos metaFormat ext mw).map
          (encAt enc)) maxSafeInteger with h | ⟨x, hx, h⟩
      · exfalso
        obtain ⟨p, hp⟩ := List.exists_mem_of_ne_nil _ hcne
        have h1 := foldl_min_le_mem ((searchCombos metaFormat ext mw).map
          (encAt enc)) maxSafeInteger (encAt enc p) (List.mem_map_of_mem _ hp)
        have h2 : encAt enc p < maxSafeInteger := henc p.1 p.2
        rw [h] at h1
        omega
      · rcases List.mem_map.1 hx with ⟨p, hp, rfl⟩
        exact ⟨p, hp, by rw [hchar, hvis, h]⟩

/-- Concrete witness for the amended C4: the counterexample input (no
combination fits) and an input where the first encoding fits. -/
theorem ensureMaxSize_no_growth_witness :
    ((formatLadder (computedFormat "jpeg" ".jpg") = [] →
      EnsureMaxSize 500 "jpeg" ".jpg" (some 64) (fun _ _ => 1000) 300 =
        (⟨false, 500⟩, 500))
  ∧ ((searchCombos "jpeg" ".jpg" (some 64)).any
        (comboFits (fun _ _ => 1000) 300) = true →
      (EnsureMaxSize 500 "jpeg" ".jpg" (some 64) (fun _ _ => 1000) 300).2 ≤ 300
      ∧ (EnsureMaxSize 500 "jpeg" ".jpg" (some 64) (fun _ _ => 1000) 300).2 < 500)
  ∧ (formatLadder (computedFormat "jpeg" ".jpg") ≠ [] →
      (searchCombos "jpeg" ".jpg" (some 64)).any
        (comboFits (fun _ _ => 1000) 300) = false →
      (∀ p ∈ searchCombos "jpeg" ".jpg" (some 64),
        (EnsureMaxSize 500 "jpeg" ".jpg" (some 64) (fun _ _ => 1000) 300).2
          ≤ encAt (fun _ _ => 1000) p)
      ∧ ∃ p ∈ searchCombos "jpeg" ".jpg" (some 64),
        (EnsureMaxSize 500 "jpeg" ".jpg" (some 64) (fun _ _ => 1000) 300).2
          = encAt (fun _ _ => 1000) p)) :=
  ensureMaxSize_no_growth 500 "jpeg" ".jpg" (some 64) (fun _ _ => 1000) 300
    (by decide) (fun _ _ => by show (1000 : Nat) < maxSafeInteger; decide) (by decide)

/-- **C5.** For every file whose current size is ≤ `maxBytes`,
`EnsureMaxSize` is a no-op: it reports `changed = false` with `newSize`
equal to the current size, the on-disk size is unchanged (nothing is
written), and running it twice in a row is a no-op both times. -/
theorem ensureMaxSize_noop_under_budget (origSize : Nat)
    (metaFormat ext : String) (mw : Option Nat)
    (enc : Option Nat → Nat → Nat) (maxBytes : Nat)
    (h : origSize ≤ maxBytes) :
    EnsureMaxSize origSize metaFormat ext mw enc maxBytes =
      (⟨false, origSize⟩, origSize)
  ∧ EnsureMaxSize (EnsureMaxSize origSize metaFormat ext mw enc maxBytes).2
      metaFormat ext mw enc maxBytes = (⟨false, origSize⟩, origSize) := by
  have h1 : EnsureMaxSize origSize metaFormat ext mw enc maxBytes =
      (⟨false, origSize⟩, origSize) := by
    unfold EnsureMaxSize
    rw [if_pos h]
  refine ⟨h1, ?_⟩
  rw [h1]
  show EnsureMaxSize origSize metaFormat ext mw enc maxBytes = _
  exact h1

/-- Concrete witness for C5: a 100-byte file against a 262144-byte budget. -/
theorem ensureMaxSize_noop_under_budget_witness :
    (100 ≤ 262144)
  ∧ (EnsureMaxSize 100 "png" ".png" (some 10) (fun _ _ => 50) 262144 =
      (⟨false, 100⟩, 100)
  ∧ EnsureMaxSize (EnsureMaxSize 100 "png" ".png" (some 10)
      (fun _ _ => 50) 262144).2 "png" ".png" (some 10)
      (fun _ _ => 50) 262144 = (⟨false, 100⟩, 100)) :=
  ⟨by decide, ensureMaxSize_noop_under_budget 100 "png" ".png" (some 10)
    (fun _ _ => 50) 262144 (by decide)⟩

/-! ## Theorems: mojibake scoring and tag normalization (claims C6, C7) -/

/-- Counterexample to C6 as stated: on the single CJK character `中` the
source's score (`cjk * 2 - mojibake`, imageController.js:113) is `2`, while
the claimed formula "count of CJK-range characters minus count of artifact
characters" gives `1`. -/
theorem scoreString_ne_specWords :
    ScoreString "中" = 2 ∧ scoreSpecWords "中" = 1
  ∧ ScoreString "中" ≠ scoreSpecWords "中" := by decide

/-- **C6** (amended).  The mojibake-repair score of a string equals twice
the count of CJK-range characters minus the count of known mis-decode
artifact characters, and `FixUtf8Mojibake` returns the reinterpreted
(latin1-bytes-decoded-as-UTF-8) candidate exactly when that candidate's
score strictly exceeds the original string's score, and the original string
otherwise. -/
theorem fixMojibake_selection (s : String) :
    ScoreString s = 2 * (cjkCount s : Int) - (artifactCount s : Int)
  ∧ FixUtf8Mojibake s =
      (if ScoreString s < ScoreString (reinterpretLatin1Utf8 s)
       then reinterpretLatin1Utf8 s else s) := by
  constructor
  · show (cjkCount s : Int) * 2 - (artifactCount s : Int) = _
    ring
  · rfl

theorem strContains_iff (l : List String) (x : String) :
    l.contains x = true ↔ x ∈ l := by
  induction l with
  | nil => simp
  | cons y ys ih => simp

theorem dedupFirstGo_mem (l : List String) : ∀ (seen : List String)
    (x : String), x ∈ dedupFirstGo seen l ↔ x ∈ l ∧ x ∉ seen := by
  induction l with
  | nil => intro seen x; simp [dedupFirstGo]
  | cons y ys ih =>
    intro seen x
    by_cases hy : seen.contains y = true
    · rw [dedupFirstGo, if_pos hy, ih]
      constructor
      · rintro ⟨h1, h2⟩
        exact ⟨List.mem_cons_of_mem _ h1, h2⟩
      · rintro ⟨h1, h2⟩
        rcases List.mem_cons.1 h1 with rfl | h3
        · exact absurd ((strContains_iff seen x).1 hy) h2
        · exact ⟨h3, h2⟩
    · rw [dedupFirstGo, if_neg hy]
      constructor
      · intro h
        rcases List.mem_cons.1 h with rfl | h3
        · exact ⟨List.mem_cons_self x ys,
            fun hx => hy ((strContains_iff seen x).2 hx)⟩
        · obtain ⟨h4, h5⟩ := (ih (y :: seen) x).1 h3
          exact ⟨List.mem_cons_of_mem _ h4,
            fun hx => h5 (List.mem_cons_of_mem _ hx)⟩
      · rintro ⟨h1, h2⟩
        rcases List.mem_cons.1 h1 with rfl | h3
        · exact List.mem_cons_self x _
        · by_cases hxy : x = y
          · subst hxy
            exact List.mem_cons_self x _
          · exact List.mem_cons_of_mem _ ((ih (y :: seen) x).2
              ⟨h3, fun hx => (List.mem_cons.1 hx).elim hxy h2⟩)

theorem dedupFirstGo_nodup (l : List String) : ∀ seen : List String,
    (dedupFirstGo seen l).Nodup := by
  induction l with
  | nil => intro seen; simp [dedupFirstGo]
  | cons y ys ih =>
    intro seen
    by_cases hy : seen.contains y = true
    · rw [dedupFirstGo, if_pos hy]
      exact ih seen
    · rw [dedupFirstGo, if_neg hy]
      refine List.nodup_cons.2 ⟨?_, ih (y :: seen)⟩
      intro hmem
      exact ((dedupFirstGo_mem ys (y :: seen) y).1 hmem).2
        (List.mem_cons_self y seen)

theorem dedupFirstGo_eq_self (l : List String) : ∀ seen : List String,
    l.Nodup → (∀ x ∈ l, x ∉ seen) → dedupFirstGo seen l = l := by
  induction l with
  | nil => intro seen _ _; rfl
  | cons y ys ih =>
    intro seen hnd hdis
    have hy : ¬ seen.contains y = true := fun h =>
      hdis y (List.mem_cons_self y ys) ((strContains_iff seen y).1 h)
    rw [dedupFirstGo, if_neg hy]
    congr 1
    refine ih (y :: seen) (List.nodup_cons.1 hnd).2 ?_
    intro x hx hmem
    rcases List.mem_cons.1 hmem with rfl | h2
    · exact (List.nodup_cons.1 hnd).1 hx
    · exact hdis x (List.mem_cons_of_mem _ hx) h2

theorem flatMap_eq_self_of_singleton (f : String → List String)
    (l : List String) (h : ∀ t ∈ l, f t = [t]) : l.flatMap f = l := by
  induction l with
  | nil => rfl
  | cons y ys ih =>
    rw [List.flatMap_cons, h y (List.mem_cons_self y ys),
      ih (fun t ht => h t (List.mem_cons_of_mem _ ht))]
    rfl

/-- Counterexample to C7 as stated: the doubly mis-decoded tag `Ã¤Â¸Â­`
(the bytes of `中` read as latin1 twice over) repairs only one level per
pass — the first normalization yields `ä¸­`, a second pass repairs that to
`中`, so `NormalizeTagsUtf8` applied to its own output differs from the
output.  `nfc := id` is faithful on this input: every string arising in the
computation consists of precomposed NFC-normal characters. -/
theorem normalizeTags_not_idempotent :
    NormalizeTagsUtf8 id (NormalizeTagsUtf8 id ["Ã¤Â¸Â­"])
      ≠ NormalizeTagsUtf8 id ["Ã¤Â¸Â­"] := by decide

/-- **C7** (amended).  Tag normalization deduplicates post-repair: the
output never contains a repeated tag, and a tag is in the output exactly
when it is the repaired, NFC-normalized canonical form of some input
segment — so two different mis-decoded inputs whose canonical forms coincide
are stored as one tag.  Normalization is idempotent on those inputs whose
output elements are fixed points of the per-segment pipeline (in particular
whenever no output element can be repaired further); it is not idempotent in
general (see the counterexample: a doubly mis-decoded tag normalizes
further on a second pass). -/
theorem normalizeTags_idem_of_fixed (nfc : String → String)
    (l : List String)
    (hfix : ∀ t ∈ NormalizeTagsUtf8 nfc l, processTag nfc t = [t]) :
    NormalizeTagsUtf8 nfc (NormalizeTagsUtf8 nfc l) = NormalizeTagsUtf8 nfc l
  ∧ (NormalizeTagsUtf8 nfc l).Nodup
  ∧ (∀ t, t ∈ NormalizeTagsUtf8 nfc l ↔ t ∈ l.flatMap (processTag nfc)) := by
  have hnd : (NormalizeTagsUtf8 nfc l).Nodup := dedupFirstGo_nodup _ []
  refine ⟨?_, hnd, fun t => ?_⟩
  · show dedupFirstGo [] ((NormalizeTagsUtf8 nfc l).flatMap (processTag nfc))
      = _
    rw [flatMap_eq_self_of_singleton _ _ hfix]
    exact dedupFirstGo_eq_self _ [] hnd
      (fun x _ hx => absurd hx (List.not_mem_nil x))
  · show t ∈ dedupFirstGo [] (l.flatMap (processTag nfc)) ↔ _
    rw [dedupFirstGo_mem]
    simp

/-- Concrete witness for the amended C7: the tags `ä¸­` (mis-decoded `中`)
and `中` repair to the same canonical form and are stored once; the output
`["中"]` is a fixed point, so a second normalization is the identity. -/
theorem normalizeTags_idem_of_fixed_witness :
    (∀ t ∈ NormalizeTagsUtf8 id ["ä¸­", "中"], processTag id t = [t])
  ∧ (NormalizeTagsUtf8 id (NormalizeTagsUtf8 id ["ä¸­", "中"]) =
      NormalizeTagsUtf8 id ["ä¸­", "中"]
  ∧ (NormalizeTagsUtf8 id ["ä¸­", "中"]).Nodup
  ∧ (∀ t, t ∈ NormalizeTagsUtf8 id ["ä¸­", "中"] ↔
      t ∈ (["ä¸­", "中"] : List String).flatMap (processTag id))) :=
  ⟨by decide, normalizeTags_idem_of_fixed id ["ä¸­", "中"] (by decide)⟩

/-! ## Theorems: filename safety and download extensions (claims C8, C10)
and the metadata list endpoint (claim C9) -/

theorem dropWhile_head_not (p : α → Bool) (l : List α) : ∀ x xs,
    l.dropWhile p = x :: xs → p x = false := by
  induction l with
  | nil => intro x xs h; cases h
  | cons a as ih =>
    intro x xs h
    rw [List.dropWhile_cons] at h
    by_cases hp : p a
    · rw [if_pos hp] at h
      exact ih x xs h
    · rw [if_neg hp] at h
      injection h with h1 _
      rw [← h1]
      exact Bool.eq_false_iff.mpr hp

theorem takeWhile_all (p : α → Bool) (l : List α)
    (h : ∀ c ∈ l, p c = true) : l.takeWhile p = l := by
  induction l with
  | nil => rfl
  | cons a as ih =>
    rw [List.takeWhile_cons, if_pos (h a (List.mem_cons_self a as)),
      ih (fun c hc => h c (List.mem_cons_of_mem _ hc))]

theorem takeWhile_append_all (p : α → Bool) (l₁ l₂ : List α)
    (h : ∀ c ∈ l₁, p c = true) :
    (l₁ ++ l₂).takeWhile p = l₁ ++ l₂.takeWhile p := by
  induction l₁ with
  | nil => rfl
  | cons a as ih =>
    rw [List.cons_append, List.takeWhile_cons,
      if_pos (h a (List.mem_cons_self a as)),
      ih (fun c hc => h c (List.mem_cons_of_mem _ hc)), List.cons_append]

theorem takeWhile_append_stop (p : α → Bool) (l₁ l₂ : List α) (x : α)
    (h1 : ∀ c ∈ l₁, p c = true) (hx : p x = false) :
    (l₁ ++ x :: l₂).takeWhile p = l₁ := by
  rw [takeWhile_append_all p l₁ _ h1, List.takeWhile_cons, hx]
  simp

/-- The non-empty extension computed by `pathExtname` is a suffix of the
name. -/
theorem pathExtname_suffix (s : String) :
    pathExtname s = "" ∨ (pathExtname s).data <:+ s.data := by
  have hsplit := List.takeWhile_append_dropWhile
    (fun c => decide (c ≠ '.')) s.data.reverse
  rcases hdw : s.data.reverse.dropWhile (fun c => c ≠ '.')
    with _ | ⟨x, _ | ⟨y, rest⟩⟩
  · left
    simp only [pathExtname]
    rw [hdw]
  · left
    simp only [pathExtname]
    rw [hdw]
  · have hx : x = '.' := by
      have h0 := dropWhile_head_not (fun c => decide (c ≠ '.'))
        s.data.reverse x (y :: rest) hdw
      simpa using h0
    subst hx
    by_cases hs : s.data = ['.', '.']
    · left
      simp only [pathExtname]
      rw [hdw]
      simp [hs]
    · right
      have hgoal : (String.mk ('.' ::
          (s.data.reverse.takeWhile (fun c => c ≠ '.')).reverse)).data
            <:+ s.data := by
        refine ⟨(y :: rest).reverse, ?_⟩
        have h2 : (s.data.reverse.takeWhile (fun c => decide (c ≠ '.'))
            ++ ('.' :: y :: rest)).reverse = s.data := by
          rw [hdw] at hsplit
          rw [hsplit, List.reverse_reverse]
        calc (y :: rest).reverse ++ (String.mk ('.' ::
              (s.data.reverse.takeWhile (fun c => c ≠ '.')).reverse)).data
            = (s.data.reverse.takeWhile (fun c => decide (c ≠ '.'))
                ++ ('.' :: y :: rest)).reverse := by
              rw [List.reverse_append]
              simp
          _ = s.data := h2
      simp only [pathExtname]
      rw [hdw]
      rw [if_neg hs]
      exact hgoal

/-- Every character of a sanitized name is in the safe class. -/
theorem sanitizeName_chars (s : String) :
    ∀ c ∈ (SanitizeName s).data, isSanAllowed c = true := by
  intro c hc
  simp only [SanitizeName] at hc
  rcases List.mem_map.1 hc with ⟨c0, _, rfl⟩
  by_cases h : isSanAllowed c0
  · rw [if_pos h]
    exact h
  · rw [if_neg h]
    decide

theorem extForMime_mem (m e : String) (h : extForMime m = some e) :
    e ∈ recognizedExts ∧ lowerStr e = e
      ∧ (∀ c ∈ e.data, isSanAllowed c = true) := by
  unfold extForMime at h
  split_ifs at h <;> first
    | (injection h with h2; subst h2; refine ⟨by decide, by decide, by decide⟩)
    | cases h

theorem lowerStr_append (a b : String) :
    lowerStr (a ++ b) = lowerStr a ++ lowerStr b := by
  simp only [lowerStr, String.data_append, List.map_append]
  apply congrArg
  rfl

theorem lowerStr_data (s : String) :
    (lowerStr s).data = s.data.map Char.toLower := rfl

theorem jsEndsWith_iff (s t : String) :
    jsEndsWith s t = true ↔ t.data <:+ s.data := by
  exact List.isSuffixOf_iff_suffix

/-- Every character of the computed download name is in the safe class. -/
theorem buildName_chars (img : Image) :
    ∀ c ∈ (BuildDownloadName img).1.data, isSanAllowed c = true := by
  intro c hc
  simp only [BuildDownloadName] at hc
  by_cases hx : recognizedExts.contains
      (lowerStr (pathExtname (SanitizeName (rawDownloadBase img)))) = true
  · rw [if_pos hx] at hc
    exact sanitizeName_chars _ c hc
  · rw [if_neg hx] at hc
    rcases hm : extForMime (ResolveMimeType img) with _ | e
    · rw [hm] at hc
      exact sanitizeName_chars _ c hc
    · rw [hm] at hc
      dsimp only at hc
      by_cases he : jsEndsWith (SanitizeName (rawDownloadBase img)) e = true
      · rw [if_pos he] at hc
        exact sanitizeName_chars _ c hc
      · rw [if_neg he] at hc
        rw [String.data_append] at hc
        rcases List.mem_append.1 hc with h1 | h2
        · exact sanitizeName_chars _ c h1
        · exact (extForMime_mem _ _ hm).2.2 c h2

/-- Counterexample to C8 as stated: for the record with display name
`file.txt` and no stored MIME type, the resolved MIME is
`application/octet-stream`, the extension map knows no extension for it, and
the download name `file.txt` carries none of the recognized image
extensions. -/
theorem buildDownloadName_no_ext :
    (BuildDownloadName noExtImg).1 = "file.txt"
  ∧ (recognizedExts.all (fun e =>
      !(jsEndsWith (lowerStr (BuildDownloadName noExtImg).1) e))) = true := by
  decide

/-- **C8** (amended).  The download name ends (case-insensitively) in a
recognized image extension whenever the sanitized display name already
carries one, or the record's resolved MIME type is one of the five mapped
image types (png/jpeg/gif/webp/bmp) so an extension can be synthesized; when
the resolved MIME type falls outside the map (e.g.
`application/octet-stream`), no extension is appended and the returned name
may carry none (see the counterexample). -/
theorem buildDownloadName_ext (img : Image)
    (h : recognizedExts.contains (lowerStr (pathExtname
          (SanitizeName (rawDownloadBase img)))) = true
       ∨ (extForMime (ResolveMimeType img)).isSome = true) :
    ∃ e ∈ recognizedExts,
      jsEndsWith (lowerStr (BuildDownloadName img).1) e = true := by
  by_cases hx : recognizedExts.contains
      (lowerStr (pathExtname (SanitizeName (rawDownloadBase img)))) = true
  · refine ⟨lowerStr (pathExtname (SanitizeName (rawDownloadBase img))),
      (strContains_iff _ _).1 hx, ?_⟩
    have hname : (BuildDownloadName img).1
        = SanitizeName (rawDownloadBase img) := by
      simp only [BuildDownloadName]
      rw [if_pos hx]
    rw [hname]
    rcases pathExtname_suffix (SanitizeName (rawDownloadBase img)) with he | he
    · exfalso
      rw [he] at hx
      exact absurd ((strContains_iff _ _).1 hx) (by decide)
    · rw [jsEndsWith_iff, lowerStr_data, lowerStr_data]
      exact he.map Char.toLower
  · rcases h with h | h
    · exact absurd h hx
    · rcases hm : extForMime (ResolveMimeType img) with _ | e
      · rw [hm] at h
        cases h
      · obtain ⟨hmem, hlow, _⟩ := extForMime_mem _ _ hm
        refine ⟨e, hmem, ?_⟩
        have hname : (BuildDownloadName img).1
            = (if jsEndsWith (SanitizeName (rawDownloadBase img)) e then
                SanitizeName (rawDownloadBase img)
               else SanitizeName (rawDownloadBase img) ++ e) := by
          simp only [BuildDownloadName]
          rw [if_neg hx, hm]
        rw [hname]
        by_cases he : jsEndsWith (SanitizeName (rawDownloadBase img)) e = true
        · rw [if_pos he]
          rw [jsEndsWith_iff] at he ⊢
          have hmap : e.data.map Char.toLower = e.data := congrArg String.data hlow
          rw [lowerStr_data, ← hmap]
          exact he.map Char.toLower
        · rw [if_neg he]
          rw [jsEndsWith_iff, lowerStr_append]
          rw [hlow]
          exact ⟨(lowerStr (SanitizeName (rawDownloadBase img))).data,
            (String.data_append _ _).symm⟩

/-- Concrete witness for the amended C8: record `pngImg` (display name
`photo`, MIME `image/png`) gets `.png` appended. -/
theorem buildDownloadName_ext_witness :
    ((extForMime (ResolveMimeType pngImg)).isSome = true)
  ∧ ∃ e ∈ recognizedExts,
      jsEndsWith (lowerStr (BuildDownloadName pngImg).1) e = true :=
  ⟨by decide, buildDownloadName_ext pngImg (Or.inr (by decide))⟩

/-- **C9.** The metadata list endpoint returns exactly the tag-filtered
records whose backing file exists (records with missing files are silently
excluded, records with live files are all present), and performs no catalog
mutation: the catalog after the call is the catalog before it. -/
theorem listImages_read_only (fs : Fs) (tags : List String)
    (catalog : List Image) :
    (ListImages fs tags catalog).2 = catalog
  ∧ (∀ m ∈ (ListImages fs tags catalog).1, ∃ r ∈ catalog,
      matchesTags tags r = true ∧ fileOk fs r = true
      ∧ m = ⟨r.id, r.filename, "", "/api/images/" ++ r.access_token,
          r.created_at⟩)
  ∧ (∀ r ∈ catalog, matchesTags tags r = true → fileOk fs r = true →
      (⟨r.id, r.filename, "", "/api/images/" ++ r.access_token,
        r.created_at⟩ : ListedImage) ∈ (ListImages fs tags catalog).1) := by
  refine ⟨rfl, ?_, ?_⟩
  · intro m hm
    simp only [ListImages] at hm
    rcases List.mem_map.1 hm with ⟨r, hr, rfl⟩
    rcases List.mem_filter.1 hr with ⟨hr1, hr2⟩
    have hr3 : r ∈ catalog.filter (matchesTags tags) :=
      (sortByIdDesc_perm _).subset hr1
    rcases List.mem_filter.1 hr3 with ⟨hr4, hr5⟩
    exact ⟨r, hr4, hr5, hr2, rfl⟩
  · intro r hr hmt hok
    have h1 : r ∈ catalog.filter (matchesTags tags) :=
      List.mem_filter.2 ⟨hr, hmt⟩
    have h2 : r ∈ ListImagesByTags tags catalog :=
      (sortByIdDesc_perm _).mem_iff.2 h1
    have h3 : r ∈ (ListImagesByTags tags catalog).filter
        (fun r => fileOk fs r) := List.mem_filter.2 ⟨h2, hok⟩
    exact List.mem_map_of_mem _ h3

/-- Concrete witness for C9 at the sample catalog and filesystem. -/
theorem listImages_read_only_witness :
    (ListImages sampleFs ["x"] sampleCatalog).2 = sampleCatalog
  ∧ (∀ m ∈ (ListImages sampleFs ["x"] sampleCatalog).1, ∃ r ∈ sampleCatalog,
      matchesTags ["x"] r = true ∧ fileOk sampleFs r = true
      ∧ m = ⟨r.id, r.filename, "", "/api/images/" ++ r.access_token,
          r.created_at⟩)
  ∧ (∀ r ∈ sampleCatalog, matchesTags ["x"] r = true →
      fileOk sampleFs r = true →
      (⟨r.id, r.filename, "", "/api/images/" ++ r.access_token,
        r.created_at⟩ : ListedImage)
        ∈ (ListImages sampleFs ["x"] sampleCatalog).1) :=
  listImages_read_only sampleFs ["x"] sampleCatalog

/-- **C10.** `SanitizeName` keeps only characters from
`[A-Za-z0-9._-]` and the CJK range U+4E00–U+9FA5, and truncates at the
first `?` or `#` (everything after is removed); consequently the ASCII
fallback filename placed in the `Content-Disposition` header contains only
printable ASCII — no double quote, no control characters, no non-ASCII
bytes. -/
theorem sanitize_safety (s t : String) (img : Image)
    (hq : ('?' ∉ s.data) ∧ ('#' ∉ s.data)) :
    (∀ c ∈ (SanitizeName s).data, isSanAllowed c = true)
  ∧ SanitizeName (s ++ "?" ++ t) = SanitizeName s
  ∧ SanitizeName (s ++ "#" ++ t) = SanitizeName s
  ∧ (∀ c ∈ (BuildDownloadName img).2.data,
      0x20 ≤ c.toNat ∧ c.toNat ≤ 0x7E ∧ c ≠ '"') := by
  obtain ⟨hq1, hq2⟩ := hq
  have hall1 : ∀ c ∈ s.data, decide (c ≠ '?') = true := by
    intro c hc
    have hne : c ≠ '?' := fun h => hq1 (h ▸ hc)
    simpa using hne
  have hall2 : ∀ c ∈ s.data, decide (c ≠ '#') = true := by
    intro c hc
    have hne : c ≠ '#' := fun h => hq2 (h ▸ hc)
    simpa using hne
  refine ⟨sanitizeName_chars s, ?_, ?_, ?_⟩
  · simp only [SanitizeName]
    have hdata : (s ++ "?" ++ t).data = s.data ++ '?' :: t.data := by
      rw [String.data_append, String.data_append,
        show ("?" : String).data = ['?'] by decide, List.append_assoc]
      rfl
    rw [hdata, takeWhile_append_stop _ _ _ _ hall1 (by decide),
      takeWhile_all _ _ hall1]
  · simp only [SanitizeName]
    have hdata : (s ++ "#" ++ t).data = s.data ++ '#' :: t.data := by
      rw [String.data_append, String.data_append,
        show ("#" : String).data = ['#'] by decide, List.append_assoc]
      rfl
    have hstep : (('#' :: t.data).takeWhile (fun c => decide (c ≠ '?')))
        = '#' :: t.data.takeWhile (fun c => decide (c ≠ '?')) := by
      rw [List.takeWhile_cons]
      simp
    rw [hdata, takeWhile_append_all _ _ _ hall1, hstep,
      takeWhile_append_stop _ _ _ _ hall2 (by decide),
      takeWhile_all _ _ hall1, takeWhile_all _ _ hall2]
  · intro c hc
    simp only [BuildDownloadName] at hc
    rcases List.mem_map.1 hc with ⟨c0, hc0, rfl⟩
    have hc0n : isSanAllowed c0 = true := by
      refine buildName_chars img c0 ?_
      simpa only [BuildDownloadName] using hc0
    by_cases hr : (0x20 ≤ c0.toNat && c0.toNat ≤ 0x7E) = true
    · rw [if_pos hr]
      have hr2 : 0x20 ≤ c0.toNat ∧ c0.toNat ≤ 0x7E := by simpa using hr
      have hq : c0 ≠ '"' := by
        intro hq
        subst hq
        exact absurd hc0n (by decide)
      exact ⟨hr2.1, hr2.2, hq⟩
    · rw [if_neg hr]
      refine ⟨by decide, by decide, by decide⟩

/-- Concrete witness for C10. -/
theorem sanitize_safety_witness :
    (('?' ∉ ("a b" : String).data) ∧ ('#' ∉ ("a b" : String).data))
  ∧ ((∀ c ∈ (SanitizeName "a b").data, isSanAllowed c = true)
  ∧ SanitizeName ("a b" ++ "?" ++ "x") = SanitizeName "a b"
  ∧ SanitizeName ("a b" ++ "#" ++ "x") = SanitizeName "a b"
  ∧ (∀ c ∈ (BuildDownloadName noExtImg).2.data,
      0x20 ≤ c.toNat ∧ c.toNat ≤ 0x7E ∧ c ≠ '"')) :=
  ⟨by decide, sanitize_safety "a b" "x" noExtImg (by decide)⟩

end Azumi
